import Mathlib

/-!
Shallow embedding of the ACO-style GPU register allocator
(`register_allocation` pass and its helpers) together with proofs about
the properties claimed in the specification.

Conventions used throughout:
* A physical register is addressed either by its unit index (one unit =
  4 bytes) or by its byte address `reg_b`; `reg_b = 4 * unit + byte`,
  mirroring the C++ `PhysReg` type.
* The register file is the C++ `std::array<uint32_t, 512>` modelled as a
  total function from unit indices to occupancy words, plus the
  auxiliary `subdword_regs` map modelled as a key-sorted association
  list from unit index to a 4-entry byte map.
* Machine integers are Nat; the two sentinel words and the mask from the
  source are kept verbatim (0xFFFFFFFF blocked, 0xF0000000 sub-word
  sentinel, 0x0FFFFFFF occupancy mask).
-/

namespace AcoRA

/-- Blocked-register sentinel word (C++ 0xFFFFFFFF). -/
def BLOCKED : Nat := 0xFFFFFFFF

/-- Sub-word-occupancy sentinel word (C++ 0xF0000000). -/
def SUBWORD : Nat := 0xF0000000

/-- Occupancy mask used by `RegisterFile::test` (C++ 0x0FFFFFFF). -/
def OCCMASK : Nat := 0x0FFFFFFF

/-- Register bank, mirroring the C++ `RegType` enum. -/
inductive RegType where
  | sgpr
  | vgpr
deriving DecidableEq, Repr

/-- Register class: bank, total size in bytes, whether the value is
sub-word sized (occupies less than one full 4-byte unit, or a non-unit
multiple), and whether it is a linear ("control-flow carrier") class
(C++ flag bit 6, tested by `rc & (1 << 6)`). -/
structure RegClass where
  rt : RegType
  bytes : Nat
  subdword : Bool
  linear : Bool
deriving DecidableEq, Repr

/-- Size in 4-byte units (C++ `RegClass::size()`, which rounds sub-word
byte counts up to whole units). -/
def RegClass.size (rc : RegClass) : Nat := (rc.bytes + 3) / 4

/-- C++ `RegClass::get(type, bytes)`: a full class when the byte count
is a multiple of 4, a sub-word class otherwise. -/
def RegClass.get (rt : RegType) (bytes : Nat) : RegClass :=
  if bytes % 4 = 0 then ⟨rt, bytes, false, false⟩ else ⟨rt, bytes, true, false⟩

/-- Half-open interval of physical register units, C++ `PhysRegInterval`
with `lo_` and `size`. -/
structure PhysRegInterval where
  lo : Nat
  size : Nat
deriving DecidableEq, Repr

/-- Exclusive upper bound (C++ `PhysRegInterval::hi()`). -/
def PhysRegInterval.hi (i : PhysRegInterval) : Nat := i.lo + i.size

/-- C++ `PhysRegInterval::contains(PhysReg)`. -/
def PhysRegInterval.containsReg (i : PhysRegInterval) (r : Nat) : Prop :=
  i.lo ≤ r ∧ r < i.hi

instance (i : PhysRegInterval) (r : Nat) : Decidable (i.containsReg r) := by
  unfold PhysRegInterval.containsReg; infer_instance

/-- C++ `PhysRegInterval::from_until(first, end)` (half-open, size by
truncated subtraction exactly as the unsigned C++ subtraction behaves on
the in-range arguments it is used with). -/
def PhysRegInterval.fromUntil (first endr : Nat) : PhysRegInterval :=
  ⟨first, endr - first⟩

/-- The `intersects` helper of the register allocator, verbatim from the
source:
`(a.lo() >= b.lo() && a.lo() < b.hi()) || (a.hi() > b.lo() && a.hi() <= b.hi())`. -/
def intersects (a b : PhysRegInterval) : Bool :=
  (decide (b.lo ≤ a.lo) && decide (a.lo < b.hi)) ||
  (decide (b.lo < a.hi) && decide (a.hi ≤ b.hi))

/-- Pointwise update of a total function, used to model array writes. -/
def upd (f : Nat → Nat) (k v : Nat) : Nat → Nat :=
  fun i => if i = k then v else f i

/-- Generic key-sorted association list standing in for `std::map` and
`std::unordered_map`. Keys are unit indices or ids. -/
abbrev AListT (α : Type) : Type := List (Nat × α)

/-- Lookup (C++ `map::find`). -/
def afind {α : Type} : AListT α → Nat → Option α
  | [], _ => none
  | (k', v') :: t, k => if k = k' then some v' else afind t k

/-- Insert-or-replace keeping the list sorted by key, matching the
iteration order of `std::map` (insertion via `emplace` followed by a
write through the returned reference). -/
def astore {α : Type} : AListT α → Nat → α → AListT α
  | [], k, v => [(k, v)]
  | (k', v') :: t, k, v =>
    if k < k' then (k, v) :: (k', v') :: t
    else if k = k' then (k, v) :: t
    else (k', v') :: astore t k v

/-- Erase a key (C++ `map::erase`); on the key-distinct maps built by
`astore` this equals erasing the single matching entry. -/
def aerase {α : Type} : AListT α → Nat → AListT α
  | [], _ => []
  | (k', v') :: t, k => if k' = k then aerase t k else (k', v') :: aerase t k

theorem afind_astore_self {α : Type} (m : AListT α) (k : Nat) (v : α) :
    afind (astore m k v) k = some v := by
  induction m with
  | nil => simp [astore, afind]
  | cons h t ih =>
    by_cases h1 : k < h.1
    · simp [astore, h1, afind]
    · by_cases h2 : k = h.1
      · simp [astore, h1, h2, afind]
      · simp [astore, h1, h2, afind, ih]

theorem afind_astore_other {α : Type} (m : AListT α) (k j : Nat) (v : α)
    (hjk : j ≠ k) : afind (astore m k v) j = afind m j := by
  induction m with
  | nil => simp [astore, afind, hjk]
  | cons h t ih =>
    by_cases h1 : k < h.1
    · simp [astore, h1, afind, hjk]
    · by_cases h2 : k = h.1
      · subst h2
        simp [astore, h1, afind, hjk]
      · simp only [astore, h1, h2, if_false, if_neg]
        by_cases h3 : j = h.1
        · simp [afind, h3]
        · simp [afind, h3, ih]

theorem afind_aerase_self {α : Type} (m : AListT α) (k : Nat) :
    afind (aerase m k) k = none := by
  induction m with
  | nil => rfl
  | cons h t ih =>
    rcases h with ⟨k', v'⟩
    by_cases h1 : k' = k
    · simpa [aerase, h1] using ih
    · have hk : k ≠ k' := fun hc => h1 hc.symm
      simp [aerase, h1, afind, hk, ih]

theorem afind_aerase_other {α : Type} (m : AListT α) (k j : Nat)
    (hjk : j ≠ k) : afind (aerase m k) j = afind m j := by
  induction m with
  | nil => rfl
  | cons h t ih =>
    rcases h with ⟨k', v'⟩
    by_cases h1 : k' = k
    · have hj : j ≠ k' := fun hc => hjk (h1 ▸ hc)
      simp [aerase, h1, afind, hj, ih, hjk]
    · by_cases h3 : j = k'
      · simp [aerase, h1, afind, h3]
      · simp [aerase, h1, afind, h3, ih]

/-- The four byte entries of one `subdword_regs` map entry
(C++ `std::array<uint32_t, 4>`). -/
structure SubBytes where
  b0 : Nat
  b1 : Nat
  b2 : Nat
  b3 : Nat
deriving DecidableEq, Repr

/-- All-zero byte map (the value `emplace` default-constructs). -/
def SubBytes.zero : SubBytes := ⟨0, 0, 0, 0⟩

/-- Read byte entry `j` (0..3). -/
def SubBytes.get (s : SubBytes) : Nat → Nat
  | 0 => s.b0
  | 1 => s.b1
  | 2 => s.b2
  | _ => s.b3

/-- True when at least one byte entry is nonzero. -/
def SubBytes.anyNZ (s : SubBytes) : Bool :=
  decide (s.b0 ≠ 0) || decide (s.b1 ≠ 0) || decide (s.b2 ≠ 0) || decide (s.b3 ≠ 0)

/-- The register file: the dense per-unit occupancy array `regs` and the
auxiliary sub-word byte map `subdword_regs` (C++ `class RegisterFile`). -/
structure RegisterFile where
  regs : Nat → Nat
  subdword : AListT SubBytes

/-- Register file with every unit free. -/
def emptyRegFile : RegisterFile := ⟨fun _ => 0, []⟩

/-- Byte map of a unit, defaulting to all-zero when the unit has no map
entry (C++ `operator[]` default-constructs a zero array). -/
def RegisterFile.subAt (rf : RegisterFile) (u : Nat) : SubBytes :=
  (afind rf.subdword u).getD SubBytes.zero

/-- Write `n` consecutive units starting at `u` (the private C++
`fill(PhysReg, unsigned, uint32_t)` acting on the unit array). -/
def writeUnits (f : Nat → Nat) (u n v : Nat) : Nat → Nat :=
  match n with
  | 0 => f
  | n + 1 => writeUnits (upd f u v) (u + 1) n v

/-- Write value `val` into the byte entries of unit `u` that fall inside
the byte range `[startB, startB + len)` (the inner `j` loop of
`fill_subdword`). -/
def writeSub (s : SubBytes) (u startB len val : Nat) : SubBytes :=
  let w := fun (j : Nat) (x : Nat) =>
    if startB ≤ 4 * u + j ∧ 4 * u + j < startB + len then val else x
  ⟨w 0 s.b0, w 1 s.b1, w 2 s.b2, w 3 s.b3⟩

/-- Per-unit body of the `fill_subdword` loop: fetch-or-create the byte
map entry, write the covered bytes, then either erase the entry and free
the unit (when all four bytes became zero) or store the updated entry. -/
def subdwordLoop (rf : RegisterFile) (u n startB len val : Nat) : RegisterFile :=
  match n with
  | 0 => rf
  | n + 1 =>
    subdwordLoop
      (if writeSub (rf.subAt u) u startB len val = SubBytes.zero then
        ⟨upd rf.regs u 0, aerase rf.subdword u⟩
      else
        ⟨rf.regs, astore rf.subdword u (writeSub (rf.subAt u) u startB len val)⟩)
      (u + 1) n startB len val

/-- C++ `RegisterFile::fill_subdword(start, num_bytes, val)`:
first marks `DIV_ROUND_UP(num_bytes, 4)` units starting at the start
unit with the sub-word sentinel, then walks every unit whose byte range
meets `[startB, startB + len)` updating the byte maps. -/
def RegisterFile.fill_subdword (rf : RegisterFile) (startB len val : Nat) :
    RegisterFile :=
  subdwordLoop
    ⟨writeUnits rf.regs (startB / 4) ((len + 3) / 4) SUBWORD, rf.subdword⟩
    (startB / 4)
    (if len = 0 then 0 else (startB + len + 3) / 4 - startB / 4)
    startB len val

/-- Full-unit fill (the private C++ `fill` on whole units, given the
start byte address of a unit-aligned location). -/
def RegisterFile.fillFull (rf : RegisterFile) (startB size val : Nat) :
    RegisterFile :=
  ⟨writeUnits rf.regs (startB / 4) size val, rf.subdword⟩

/-- C++ `RegisterFile::block(start, rc)`. -/
def RegisterFile.blockRc (rf : RegisterFile) (startB : Nat) (rc : RegClass) :
    RegisterFile :=
  if rc.subdword then rf.fill_subdword startB rc.bytes BLOCKED
  else rf.fillFull startB rc.size BLOCKED

/-- Dispatch of C++ `fill` on a located value: sub-word classes write
byte entries, full classes write whole units. -/
def RegisterFile.fillRc (rf : RegisterFile) (startB : Nat) (rc : RegClass)
    (id : Nat) : RegisterFile :=
  if rc.subdword then rf.fill_subdword startB rc.bytes id
  else rf.fillFull startB rc.size id

/-- C++ `RegisterFile::clear(start, rc)`. -/
def RegisterFile.clearRc (rf : RegisterFile) (startB : Nat) (rc : RegClass) :
    RegisterFile :=
  if rc.subdword then rf.fill_subdword startB rc.bytes 0
  else rf.fillFull startB rc.size 0

/-- Inner loop of C++ `RegisterFile::test`: scan units, reporting any
unit whose occupancy word has a bit inside the mask, and for sub-word
sentinel units any claimed byte inside the tested byte range. -/
def testLoop (rf : RegisterFile) (u n startB len : Nat) : Bool :=
  match n with
  | 0 => false
  | n + 1 =>
    if Nat.land (rf.regs u) OCCMASK ≠ 0 then true
    else if rf.regs u = SUBWORD ∧
        ((List.range 4).any fun j =>
          decide (startB ≤ 4 * u + j) && decide (4 * u + j < startB + len) &&
          decide ((rf.subAt u).get j ≠ 0)) then true
    else testLoop rf (u + 1) n startB len

/-- C++ `RegisterFile::test(start, num_bytes)`. -/
def RegisterFile.test (rf : RegisterFile) (startB len : Nat) : Bool :=
  let u0 := startB / 4
  let n := if len = 0 then 0 else (startB + len + 3) / 4 - u0
  testLoop rf u0 n startB len

/-- C++ `RegisterFile::is_blocked(start)` at byte address `startB`. -/
def RegisterFile.is_blockedB (rf : RegisterFile) (startB : Nat) : Bool :=
  let u := startB / 4
  if rf.regs u = BLOCKED then true
  else if rf.regs u = SUBWORD then
    (List.range 4).any fun j =>
      decide (startB % 4 ≤ j) && decide ((rf.subAt u).get j = BLOCKED)
  else false

/-- C++ `RegisterFile::is_empty_or_blocked(start)`: relies on 32-bit
wraparound (`regs[start] + 1 <= 1` catches both 0 and 0xFFFFFFFF). -/
def RegisterFile.is_empty_or_blockedB (rf : RegisterFile) (startB : Nat) : Bool :=
  let u := startB / 4
  if rf.regs u = SUBWORD then
    decide (((rf.subAt u).get (startB % 4) + 1) % 4294967296 ≤ 1)
  else
    decide ((rf.regs u + 1) % 4294967296 ≤ 1)

/-- C++ `RegisterFile::get_id(reg)` at byte address `startB`. -/
def RegisterFile.get_id (rf : RegisterFile) (startB : Nat) : Nat :=
  let u := startB / 4
  if rf.regs u = SUBWORD then (rf.subAt u).get (startB % 4) else rf.regs u

/-- C++ `RegisterFile::count_zero(reg_interval)` (counts free units). -/
def RegisterFile.count_zero (rf : RegisterFile) (iv : PhysRegInterval) : Nat :=
  ((List.range' iv.lo iv.size).filter fun u => rf.regs u = 0).length

/-- Register-demand pair (C++ `RegisterDemand`). -/
structure RegisterDemand where
  vgpr : Nat
  sgpr : Nat
deriving DecidableEq, Repr

/-- Modelled from the spec: the per-wave-occupancy-derived addressable
register maxima (`get_addr_sgpr_from_waves` and `get_addr_vgpr_from_waves`
applied to `program->min_waves`). Their definitions are not part of
these sources, so they are taken as the two configuration inputs the
spec describes: the SGPR ceiling derived from the hardware's
addressable-SGPRs-per-wave maximum and the VGPR ceiling from the
addressable-VGPRs-per-wave maximum. -/
structure WaveCeilings where
  addrSgprFromMinWaves : Nat
  addrVgprFromMinWaves : Nat
deriving DecidableEq, Repr

/-- The two stored limits of `ra_ctx`. -/
structure RaLimits where
  sgprLimit : Nat
  vgprLimit : Nat
deriving DecidableEq, Repr

/-- Limit initialization of the `ra_ctx` constructor, verbatim from the
source: both `sgpr_limit` and `vgpr_limit` are assigned from
`get_addr_sgpr_from_waves(program, program->min_waves)`. -/
def mkRaLimits (w : WaveCeilings) : RaLimits :=
  { sgprLimit := w.addrSgprFromMinWaves, vgprLimit := w.addrSgprFromMinWaves }

/-- C++ `increase_register_file(ctx, type)`: grow the failing bank's
budget by exactly one unit when the current maximum demand is strictly
below the context's stored limit for that bank, otherwise fail. -/
def increase_register_file (lim : RaLimits) (d : RegisterDemand) (t : RegType) :
    Option RegisterDemand :=
  if t = RegType.vgpr ∧ d.vgpr < lim.vgprLimit then
    some { d with vgpr := d.vgpr + 1 }
  else if t = RegType.sgpr ∧ d.sgpr < lim.sgprLimit then
    some { d with sgpr := d.sgpr + 1 }
  else none

/-- The sub-word state invariant stated by the spec: a unit holds the
sub-word sentinel exactly when its auxiliary byte map has at least one
nonzero entry. -/
def RegisterFile.subInv (rf : RegisterFile) : Prop :=
  ∀ u, u < 512 → (rf.regs u = SUBWORD ↔ (rf.subAt u).anyNZ = true)

instance (rf : RegisterFile) : Decidable rf.subInv := by
  unfold RegisterFile.subInv; infer_instance

theorem anyNZ_false_iff (s : SubBytes) :
    s.anyNZ = false ↔ s = SubBytes.zero := by
  rcases s with ⟨a, b, c, d⟩
  simp [SubBytes.anyNZ, SubBytes.zero]
  omega

theorem writeUnits_apply (v : Nat) :
    ∀ (n u : Nat) (f : Nat → Nat) (i : Nat),
      writeUnits f u n v i = if u ≤ i ∧ i < u + n then v else f i := by
  intro n
  induction n with
  | zero =>
    intro u f i
    show f i = _
    rw [if_neg (by omega)]
  | succ n ih =>
    intro u f i
    show writeUnits (upd f u v) (u + 1) n v i = _
    rw [ih]
    by_cases h1 : u + 1 ≤ i ∧ i < u + 1 + n
    · rw [if_pos h1, if_pos (show u ≤ i ∧ i < u + (n + 1) by omega)]
    · rw [if_neg h1]
      by_cases h2 : i = u
      · rw [upd, if_pos h2, if_pos (by omega)]
      · rw [upd, if_neg h2, if_neg (by omega)]

theorem subAt_mk_astore (regs : Nat → Nat) (m : AListT SubBytes)
    (u : Nat) (s : SubBytes) :
    RegisterFile.subAt ⟨regs, astore m u s⟩ u = s := by
  simp [RegisterFile.subAt, afind_astore_self]

theorem subAt_mk_astore_other (regs : Nat → Nat) (m : AListT SubBytes)
    (u i : Nat) (s : SubBytes) (h : i ≠ u) :
    RegisterFile.subAt ⟨regs, astore m u s⟩ i = RegisterFile.subAt ⟨regs, m⟩ i := by
  simp [RegisterFile.subAt, afind_astore_other _ _ _ _ h]

theorem subAt_mk_aerase (regs : Nat → Nat) (m : AListT SubBytes) (u : Nat) :
    RegisterFile.subAt ⟨regs, aerase m u⟩ u = SubBytes.zero := by
  simp [RegisterFile.subAt, afind_aerase_self]

theorem subAt_mk_aerase_other (regs : Nat → Nat) (m : AListT SubBytes)
    (u i : Nat) (h : i ≠ u) :
    RegisterFile.subAt ⟨regs, aerase m u⟩ i = RegisterFile.subAt ⟨regs, m⟩ i := by
  simp [RegisterFile.subAt, afind_aerase_other _ _ _ h]

theorem subdwordLoop_apply (startB len val : Nat) :
    ∀ (n u : Nat) (rf : RegisterFile) (i : Nat),
      ((subdwordLoop rf u n startB len val).regs i =
        if u ≤ i ∧ i < u + n then
          (if writeSub (rf.subAt i) i startB len val = SubBytes.zero then 0
           else rf.regs i)
        else rf.regs i) ∧
      ((subdwordLoop rf u n startB len val).subAt i =
        if u ≤ i ∧ i < u + n then writeSub (rf.subAt i) i startB len val
        else rf.subAt i) := by
  intro n
  induction n with
  | zero =>
    intro u rf i
    refine ⟨?_, ?_⟩
    · show rf.regs i = _
      rw [if_neg (by omega)]
    · show rf.subAt i = _
      rw [if_neg (by omega)]
  | succ n ih =>
    intro u rf i
    have hstep : subdwordLoop rf u (n + 1) startB len val
        = subdwordLoop
          (if writeSub (rf.subAt u) u startB len val = SubBytes.zero then
            ⟨upd rf.regs u 0, aerase rf.subdword u⟩
          else
            ⟨rf.regs, astore rf.subdword u (writeSub (rf.subAt u) u startB len val)⟩)
          (u + 1) n startB len val := rfl
    by_cases hz : writeSub (rf.subAt u) u startB len val = SubBytes.zero
    · rw [hstep, if_pos hz]
      obtain ⟨hr, hs⟩ := ih (u + 1) ⟨upd rf.regs u 0, aerase rf.subdword u⟩ i
      rw [hr, hs]
      by_cases hi : i = u
      · subst hi
        rw [if_neg (show ¬(i + 1 ≤ i ∧ i < i + 1 + n) by omega),
            if_neg (show ¬(i + 1 ≤ i ∧ i < i + 1 + n) by omega),
            if_pos (show i ≤ i ∧ i < i + (n + 1) by omega),
            if_pos (show i ≤ i ∧ i < i + (n + 1) by omega),
            if_pos hz]
        constructor
        · show upd rf.regs i 0 i = 0
          rw [upd, if_pos rfl]
        · rw [subAt_mk_aerase, hz]
      · have e1 : RegisterFile.subAt ⟨upd rf.regs u 0, aerase rf.subdword u⟩ i
            = rf.subAt i := subAt_mk_aerase_other _ _ _ _ hi
        have e2 : (⟨upd rf.regs u 0, aerase rf.subdword u⟩ : RegisterFile).regs i
            = rf.regs i := by
          show upd rf.regs u 0 i = rf.regs i
          rw [upd, if_neg hi]
        rw [e1, e2]
        by_cases h1 : u + 1 ≤ i ∧ i < u + 1 + n
        · rw [if_pos h1, if_pos h1,
              if_pos (show u ≤ i ∧ i < u + (n + 1) by omega),
              if_pos (show u ≤ i ∧ i < u + (n + 1) by omega)]
          exact ⟨rfl, rfl⟩
        · rw [if_neg h1, if_neg h1,
              if_neg (show ¬(u ≤ i ∧ i < u + (n + 1)) by omega),
              if_neg (show ¬(u ≤ i ∧ i < u + (n + 1)) by omega)]
          exact ⟨rfl, rfl⟩
    · rw [hstep, if_neg hz]
      obtain ⟨hr, hs⟩ :=
        ih (u + 1) ⟨rf.regs, astore rf.subdword u (writeSub (rf.subAt u) u startB len val)⟩ i
      rw [hr, hs]
      by_cases hi : i = u
      · subst hi
        rw [if_neg (show ¬(i + 1 ≤ i ∧ i < i + 1 + n) by omega),
            if_neg (show ¬(i + 1 ≤ i ∧ i < i + 1 + n) by omega),
            if_pos (show i ≤ i ∧ i < i + (n + 1) by omega),
            if_pos (show i ≤ i ∧ i < i + (n + 1) by omega),
            if_neg hz]
        exact ⟨rfl, subAt_mk_astore _ _ _ _⟩
      · have e1 : RegisterFile.subAt
            ⟨rf.regs, astore rf.subdword u (writeSub (rf.subAt u) u startB len val)⟩ i
            = rf.subAt i := subAt_mk_astore_other _ _ _ _ _ hi
        rw [e1]
        by_cases h1 : u + 1 ≤ i ∧ i < u + 1 + n
        · rw [if_pos h1, if_pos h1,
              if_pos (show u ≤ i ∧ i < u + (n + 1) by omega),
              if_pos (show u ≤ i ∧ i < u + (n + 1) by omega)]
          exact ⟨rfl, rfl⟩
        · rw [if_neg h1, if_neg h1,
              if_neg (show ¬(u ≤ i ∧ i < u + (n + 1)) by omega),
              if_neg (show ¬(u ≤ i ∧ i < u + (n + 1)) by omega)]
          exact ⟨rfl, rfl⟩

theorem fill_subdword_apply (rf : RegisterFile) (startB len val i : Nat)
    (hlen : 0 < len) (hcross : startB % 4 + len ≤ 4 * ((len + 3) / 4)) :
    ((rf.fill_subdword startB len val).regs i =
      if startB / 4 ≤ i ∧ i < startB / 4 + (len + 3) / 4 then
        (if writeSub (rf.subAt i) i startB len val = SubBytes.zero then 0
         else SUBWORD)
      else rf.regs i) ∧
    ((rf.fill_subdword startB len val).subAt i =
      if startB / 4 ≤ i ∧ i < startB / 4 + (len + 3) / 4 then
        writeSub (rf.subAt i) i startB len val
      else rf.subAt i) := by
  have hn : (if len = 0 then 0 else (startB + len + 3) / 4 - startB / 4)
      = (len + 3) / 4 := by
    rw [if_neg (by omega)]
    omega
  unfold RegisterFile.fill_subdword
  rw [hn]
  have hbase :
      RegisterFile.subAt ⟨writeUnits rf.regs (startB / 4) ((len + 3) / 4) SUBWORD,
        rf.subdword⟩ i = rf.subAt i := rfl
  rcases subdwordLoop_apply startB len val ((len + 3) / 4) (startB / 4)
      ⟨writeUnits rf.regs (startB / 4) ((len + 3) / 4) SUBWORD, rf.subdword⟩ i
    with ⟨hr, hs⟩
  rw [hr, hs, hbase]
  by_cases h1 : startB / 4 ≤ i ∧ i < startB / 4 + (len + 3) / 4
  · constructor
    · rw [if_pos h1, if_pos h1]
      by_cases hz : writeSub (rf.subAt i) i startB len val = SubBytes.zero
      · rw [if_pos hz, if_pos hz]
      · rw [if_neg hz, if_neg hz]
        show writeUnits rf.regs (startB / 4) ((len + 3) / 4) SUBWORD i = SUBWORD
        rw [writeUnits_apply, if_pos h1]
    · rw [if_pos h1]
  · constructor
    · rw [if_neg h1, if_neg h1]
      show writeUnits rf.regs (startB / 4) ((len + 3) / 4) SUBWORD i = rf.regs i
      rw [writeUnits_apply, if_neg h1]
    · rw [if_neg h1]

theorem fillFull_apply (rf : RegisterFile) (startB size val i : Nat) :
    ((rf.fillFull startB size val).regs i =
      if startB / 4 ≤ i ∧ i < startB / 4 + size then val else rf.regs i) ∧
    (rf.fillFull startB size val).subAt i = rf.subAt i := by
  unfold RegisterFile.fillFull
  exact ⟨writeUnits_apply val size (startB / 4) rf.regs i, rfl⟩

/-- C8 (counterexample): with `a = [0, 4)` and `b = [1, 3)` the register
1 is contained in both intervals, yet `intersects a b` is `false` (the
implementation misses the case where `a` strictly contains `b`); it is
also asymmetric, since `intersects b a` is `true`. -/
theorem c8_intersects_counterexample :
    intersects ⟨0, 4⟩ ⟨1, 2⟩ = false ∧
    PhysRegInterval.containsReg ⟨0, 4⟩ 1 ∧
    PhysRegInterval.containsReg ⟨1, 2⟩ 1 ∧
    intersects ⟨1, 2⟩ ⟨0, 4⟩ = true := by
  decide

/-- C8 (amended): for nonempty half-open intervals, `intersects a b` is
true exactly when the intervals share a register AND `a` does not
strictly contain `b` (that is, `a.lo < b.lo` and `b.hi < a.hi` fails);
it detects "a starts inside b" and "a ends inside b" but not strict
containment, and is therefore not symmetric. -/
theorem c8_intersects_amended (a b : PhysRegInterval)
    (ha : 0 < a.size) (hb : 0 < b.size) :
    intersects a b = true ↔
      ((∃ r, a.containsReg r ∧ b.containsReg r) ∧ (b.lo ≤ a.lo ∨ a.hi ≤ b.hi)) := by
  unfold intersects PhysRegInterval.containsReg PhysRegInterval.hi at *
  constructor
  · intro h
    simp only [Bool.or_eq_true, Bool.and_eq_true, decide_eq_true_eq] at h
    rcases h with ⟨h1, h2⟩ | ⟨h1, h2⟩
    · exact ⟨⟨max a.lo b.lo, by constructor <;> omega, by constructor <;> omega⟩,
        by omega⟩
    · exact ⟨⟨max a.lo b.lo, by constructor <;> omega, by constructor <;> omega⟩,
        by omega⟩
  · rintro ⟨⟨r, ⟨h1, h2⟩, h3, h4⟩, h5⟩
    simp only [Bool.or_eq_true, Bool.and_eq_true, decide_eq_true_eq]
    omega

theorem c8_intersects_amended_witness :
    (0 < (⟨2, 2⟩ : PhysRegInterval).size ∧ 0 < (⟨3, 4⟩ : PhysRegInterval).size) ∧
    (intersects ⟨2, 2⟩ ⟨3, 4⟩ = true ↔
      ((∃ r, PhysRegInterval.containsReg ⟨2, 2⟩ r ∧
          PhysRegInterval.containsReg ⟨3, 4⟩ r) ∧
        ((⟨3, 4⟩ : PhysRegInterval).lo ≤ (⟨2, 2⟩ : PhysRegInterval).lo ∨
          (⟨2, 2⟩ : PhysRegInterval).hi ≤ (⟨3, 4⟩ : PhysRegInterval).hi))) :=
  ⟨⟨by decide, by decide⟩,
   c8_intersects_amended ⟨2, 2⟩ ⟨3, 4⟩ (by decide) (by decide)⟩

/-- C2: with 102 addressable SGPRs per wave and 256 addressable VGPRs
per wave, a VGPR demand of 150 is strictly below the VGPR-derived
ceiling, yet `increase_register_file` fails, because the `ra_ctx`
constructor initializes `vgpr_limit` from `get_addr_sgpr_from_waves`
(the SGPR derivation) instead of `get_addr_vgpr_from_waves`; the SGPR
bank grows by exactly one unit as claimed. -/
theorem c2_vgpr_ceiling_bug :
    increase_register_file (mkRaLimits ⟨102, 256⟩) ⟨150, 20⟩ RegType.vgpr = none ∧
    150 < (⟨102, 256⟩ : WaveCeilings).addrVgprFromMinWaves ∧
    increase_register_file (mkRaLimits ⟨102, 256⟩) ⟨150, 20⟩ RegType.sgpr =
      some ⟨150, 21⟩ := by
  decide

set_option maxRecDepth 4000 in
/-- C7 (counterexample): filling a 3-byte sub-word value at byte offset
2 of an empty file claims byte 0 of the next unit in the auxiliary map,
but `fill_subdword` only marks `DIV_ROUND_UP(3, 4) = 1` unit with the
sub-word sentinel, so the next unit keeps occupancy word 0 (free) while
its byte map holds a nonzero entry — the claimed iff-invariant is
violated by this mutation. -/
theorem c7_subdword_crossing_counterexample :
    RegisterFile.subInv emptyRegFile ∧
    ¬ RegisterFile.subInv (emptyRegFile.fill_subdword 2 3 7) ∧
    (emptyRegFile.fill_subdword 2 3 7).regs 1 = 0 ∧
    ((emptyRegFile.fill_subdword 2 3 7).subAt 1).get 0 = 7 := by
  decide

/-- C7 (amended): the register-file mutations preserve the iff-invariant
("a unit holds the sub-word sentinel iff its byte map has a nonzero
entry") under their usage preconditions: a sub-word fill/clear whose
byte range stays inside the `DIV_ROUND_UP(bytes, 4)` sentinel-marked
units (`byte_offset + bytes ≤ 4 * DIV_ROUND_UP(bytes, 4)`), and a
full-unit fill/clear whose target units have empty byte maps. A
sub-word clear checks all four bytes of each touched unit and frees the
unit exactly when every byte became empty. -/
theorem c7_subword_invariant_amended (rf : RegisterFile) (h : rf.subInv) :
    (∀ startB len val, startB % 4 + len ≤ 4 * ((len + 3) / 4) →
        (rf.fill_subdword startB len val).subInv) ∧
    (∀ startB size val, val ≠ SUBWORD →
        (∀ u, u < 512 → startB / 4 ≤ u → u < startB / 4 + size →
          (rf.subAt u).anyNZ = false) →
        (rf.fillFull startB size val).subInv) ∧
    (∀ startB rc, rc.subdword = true →
        startB % 4 + rc.bytes ≤ 4 * ((rc.bytes + 3) / 4) →
        (rf.blockRc startB rc).subInv) ∧
    (∀ startB len, 0 < len → startB % 4 + len ≤ 4 * ((len + 3) / 4) →
        ∀ u, startB / 4 ≤ u → u < startB / 4 + (len + 3) / 4 →
          ((rf.fill_subdword startB len 0).regs u = 0 ↔
            ((rf.fill_subdword startB len 0).subAt u).anyNZ = false)) := by
  have hsub : ∀ startB len val, startB % 4 + len ≤ 4 * ((len + 3) / 4) →
      (rf.fill_subdword startB len val).subInv := by
    intro startB len val hcross
    by_cases hlen : len = 0
    · subst hlen
      exact h
    · intro u hu
      obtain ⟨hr, hs⟩ := fill_subdword_apply rf startB len val u (by omega) hcross
      rw [hr, hs]
      by_cases h1 : startB / 4 ≤ u ∧ u < startB / 4 + (len + 3) / 4
      · rw [if_pos h1, if_pos h1]
        by_cases hz : writeSub (rf.subAt u) u startB len val = SubBytes.zero
        · rw [if_pos hz, hz]
          decide
        · rw [if_neg hz]
          have ht : (writeSub (rf.subAt u) u startB len val).anyNZ = true := by
            cases hb : (writeSub (rf.subAt u) u startB len val).anyNZ
            · exact absurd ((anyNZ_false_iff _).mp hb) hz
            · rfl
          simp [ht]
      · rw [if_neg h1, if_neg h1]
        exact h u hu
  have hfull : ∀ startB size val, val ≠ SUBWORD →
      (∀ u, u < 512 → startB / 4 ≤ u → u < startB / 4 + size →
        (rf.subAt u).anyNZ = false) →
      (rf.fillFull startB size val).subInv := by
    intro startB size val hval hz u hu
    obtain ⟨hr, hs⟩ := fillFull_apply rf startB size val u
    rw [hr, hs]
    by_cases h1 : startB / 4 ≤ u ∧ u < startB / 4 + size
    · rw [if_pos h1]
      have hnz := hz u hu h1.1 h1.2
      constructor
      · intro hv
        exact absurd hv hval
      · intro hany
        rw [hnz] at hany
        exact Bool.noConfusion hany
    · rw [if_neg h1]
      exact h u hu
  refine ⟨hsub, hfull, ?_, ?_⟩
  · intro startB rc hsd hcross
    unfold RegisterFile.blockRc
    rw [if_pos hsd]
    exact hsub startB rc.bytes BLOCKED hcross
  · intro startB len hlen hcross u hlo hhi
    obtain ⟨hr, hs⟩ := fill_subdword_apply rf startB len 0 u hlen hcross
    have h1 : startB / 4 ≤ u ∧ u < startB / 4 + (len + 3) / 4 := ⟨hlo, hhi⟩
    rw [hr, hs, if_pos h1, if_pos h1]
    by_cases hz : writeSub (rf.subAt u) u startB len 0 = SubBytes.zero
    · rw [if_pos hz, hz]
      decide
    · rw [if_neg hz]
      have ht : (writeSub (rf.subAt u) u startB len 0).anyNZ = true := by
        cases hb : (writeSub (rf.subAt u) u startB len 0).anyNZ
        · exact absurd ((anyNZ_false_iff _).mp hb) hz
        · rfl
      constructor
      · intro hv
        exact absurd hv (by decide)
      · intro hany
        rw [ht] at hany
        exact Bool.noConfusion hany

set_option maxRecDepth 8000 in
theorem c7_subword_invariant_amended_witness :
    RegisterFile.subInv emptyRegFile ∧
    (emptyRegFile.fill_subdword 6 2 9).subInv ∧
    (emptyRegFile.fillFull 8 2 5).subInv ∧
    (emptyRegFile.blockRc 4 ⟨RegType.vgpr, 2, true, false⟩).subInv ∧
    ((emptyRegFile.fill_subdword 6 2 0).regs 1 = 0 ↔
      ((emptyRegFile.fill_subdword 6 2 0).subAt 1).anyNZ = false) :=
  ⟨by decide,
   (c7_subword_invariant_amended emptyRegFile (by decide)).1 6 2 9 (by decide),
   (c7_subword_invariant_amended emptyRegFile (by decide)).2.1 8 2 5 (by decide)
     (by decide),
   (c7_subword_invariant_amended emptyRegFile (by decide)).2.2.1 4
     ⟨RegType.vgpr, 2, true, false⟩ (by decide) (by decide),
   (c7_subword_invariant_amended emptyRegFile (by decide)).2.2.2 6 2 (by decide)
     (by decide) 1 (by decide) (by decide)⟩

/-- Control-flow-graph shape consumed by the block-sealing logic of
`register_allocation`: blocks indexed `0 .. nblocks - 1`, with the
linear predecessor and successor lists of each block. -/
structure CFG where
  nblocks : Nat
  linearPreds : Nat → List Nat
  linearSuccs : Nat → List Nat

/-- Events of the sealing portion of the pass: a block finishing its
instruction-level processing (`ctx.filled[b] = true`), a block being
sealed, and the finalization of a sealed block's incomplete phis
(re-resolving and fixing their operands). -/
inductive RaEvent where
  | fillB (b : Nat)
  | sealB (b : Nat)
  | finalizePhis (b : Nat)
deriving DecidableEq, Repr

/-- The `filled` / `sealed` flags of `ra_ctx`. -/
structure SealState where
  filled : Nat → Bool
  sealedB : Nat → Bool

/-- Body of the per-successor loop at the end of each block iteration:
seal the successor (and finalize its incomplete phis) exactly when every
one of the successor's linear predecessors is filled. -/
def sealSuccsStep (g : CFG) (acc : SealState × List RaEvent) (s : Nat) :
    SealState × List RaEvent :=
  if (g.linearPreds s).all (fun p => acc.1.filled p) then
    ({ acc.1 with sealedB := fun b => if b = s then true else acc.1.sealedB b },
     acc.2 ++ [RaEvent.sealB s, RaEvent.finalizePhis s])
  else acc

/-- Epilogue of one block iteration of `register_allocation`: mark the
block filled, then run the successor-sealing loop. -/
def processBlockSeal (g : CFG) (acc : SealState × List RaEvent) (b : Nat) :
    SealState × List RaEvent :=
  (g.linearSuccs b).foldl (sealSuccsStep g)
    ({ acc.1 with filled := fun x => if x = b then true else acc.1.filled x },
     acc.2 ++ [RaEvent.fillB b])

/-- The sealing-relevant trace of the whole pass: blocks processed once
each, in order. -/
def runPassSeal (g : CFG) : SealState × List RaEvent :=
  (List.range g.nblocks).foldl (processBlockSeal g)
    (⟨fun _ => false, fun _ => false⟩, [])

/-- Invariant carried through the pass: sealed blocks have all linear
predecessors filled; filled blocks have their fill event in the trace;
and every finalization event is preceded in the trace by the matching
seal event and by the fill events of all the block's predecessors. -/
def SealInv (g : CFG) (p : SealState × List RaEvent) : Prop :=
  (∀ b, p.1.sealedB b = true → ∀ q ∈ g.linearPreds b, p.1.filled q = true) ∧
  (∀ q, p.1.filled q = true → RaEvent.fillB q ∈ p.2) ∧
  (∀ b, RaEvent.finalizePhis b ∈ p.2 →
    List.Sublist [RaEvent.sealB b, RaEvent.finalizePhis b] p.2 ∧
    ∀ q ∈ g.linearPreds b,
      List.Sublist [RaEvent.fillB q, RaEvent.finalizePhis b] p.2)

theorem sealInv_append_mono (g : CFG) (st : SealState) (evs extra : List RaEvent)
    (h : SealInv g (st, evs))
    (hextra : ∀ b, RaEvent.finalizePhis b ∉ extra) :
    (∀ q, st.filled q = true → RaEvent.fillB q ∈ evs ++ extra) ∧
    (∀ b, RaEvent.finalizePhis b ∈ evs ++ extra →
      List.Sublist [RaEvent.sealB b, RaEvent.finalizePhis b] (evs ++ extra) ∧
      ∀ q ∈ g.linearPreds b,
        List.Sublist [RaEvent.fillB q, RaEvent.finalizePhis b] (evs ++ extra)) := by
  obtain ⟨_, h2, h3⟩ := h
  constructor
  · intro q hq
    exact List.mem_append_left _ (h2 q hq)
  · intro b hb
    rcases List.mem_append.mp hb with hb | hb
    · obtain ⟨hs, hp⟩ := h3 b hb
      exact ⟨hs.trans (List.sublist_append_left _ _),
        fun q hq => (hp q hq).trans (List.sublist_append_left _ _)⟩
    · exact absurd hb (hextra b)

theorem sealSuccsStep_inv (g : CFG) (acc : SealState × List RaEvent) (s : Nat)
    (h : SealInv g acc) : SealInv g (sealSuccsStep g acc s) := by
  obtain ⟨h1, h2, h3⟩ := h
  unfold sealSuccsStep
  by_cases hg : (g.linearPreds s).all (fun p => acc.1.filled p) = true
  · rw [if_pos hg]
    have hpred : ∀ q ∈ g.linearPreds s, acc.1.filled q = true :=
      List.all_eq_true.mp hg
    refine ⟨?_, ?_, ?_⟩
    · intro b hb q hq
      by_cases hbs : b = s
      · exact hpred q (hbs ▸ hq)
      · simp only [hbs, if_false] at hb
        exact h1 b hb q hq
    · intro q hq
      exact List.mem_append_left _ (h2 q hq)
    · intro b hb
      rcases List.mem_append.mp hb with hb | hb
      · obtain ⟨hs', hp⟩ := h3 b hb
        exact ⟨hs'.trans (List.sublist_append_left _ _),
          fun q hq => (hp q hq).trans (List.sublist_append_left _ _)⟩
      · have hbs : b = s := by
          rcases List.mem_cons.mp hb with hc | hc
          · cases hc
          · rcases List.mem_cons.mp hc with hc2 | hc2
            · cases hc2
              rfl
            · cases hc2
        subst hbs
        refine ⟨List.sublist_append_right _ _, ?_⟩
        intro q hq
        have hmem : RaEvent.fillB q ∈ acc.2 := h2 q (hpred q hq)
        have hone : List.Sublist [RaEvent.fillB q] acc.2 :=
          List.singleton_sublist.mpr hmem
        have htwo : List.Sublist [RaEvent.finalizePhis b]
            [RaEvent.sealB b, RaEvent.finalizePhis b] :=
          (List.Sublist.refl _).cons _
        exact hone.append htwo
  · rw [if_neg hg]
    exact ⟨h1, h2, h3⟩

theorem sealSuccsFold_inv (g : CFG) :
    ∀ (l : List Nat) (acc : SealState × List RaEvent),
      SealInv g acc → SealInv g (l.foldl (sealSuccsStep g) acc) := by
  intro l
  induction l with
  | nil => intro acc h; exact h
  | cons s t ih =>
    intro acc h
    exact ih _ (sealSuccsStep_inv g acc s h)

theorem processBlockSeal_inv (g : CFG) (acc : SealState × List RaEvent) (b : Nat)
    (h : SealInv g acc) : SealInv g (processBlockSeal g acc b) := by
  apply sealSuccsFold_inv
  obtain ⟨h1, h2, h3⟩ := h
  have hextra : ∀ b', RaEvent.finalizePhis b' ∉ [RaEvent.fillB b] := by
    intro b' hc
    rcases List.mem_cons.mp hc with hc | hc
    · cases hc
    · cases hc
  obtain ⟨g2, g3⟩ := sealInv_append_mono g acc.1 acc.2 [RaEvent.fillB b]
    ⟨h1, h2, h3⟩ hextra
  refine ⟨?_, ?_, g3⟩
  · intro b' hb' q hq
    by_cases hqb : q = b
    · simp [hqb]
    · simp only [hqb, if_false]
      exact h1 b' hb' q hq
  · intro q hq
    by_cases hqb : q = b
    · subst hqb
      exact List.mem_append_right _ (List.mem_singleton.mpr rfl)
    · simp only [hqb, if_false] at hq
      exact g2 q hq

theorem processFold_inv (g : CFG) :
    ∀ (l : List Nat) (acc : SealState × List RaEvent),
      SealInv g acc → SealInv g (l.foldl (processBlockSeal g) acc) := by
  intro l
  induction l with
  | nil => intro acc h; exact h
  | cons b t ih => intro acc h; exact ih _ (processBlockSeal_inv g acc b h)

theorem runPassSeal_inv (g : CFG) : SealInv g (runPassSeal g) := by
  apply processFold_inv
  refine ⟨?_, ?_, ?_⟩
  · intro b hb
    cases hb
  · intro q hq
    cases hq
  · intro b hb
    cases hb

/-- C10: a block becomes sealed only once every one of its (linear)
predecessors has been completely processed (filled), and the
finalization of a block's incomplete phis (re-resolving operands and
fixing their registers) occurs only at the sealing transition — in the
pass trace it is always preceded by the block's seal event and by the
fill events of all its predecessors. -/
theorem c10_seal_after_preds_filled (g : CFG) :
    (∀ b, (runPassSeal g).1.sealedB b = true →
      ∀ p ∈ g.linearPreds b, (runPassSeal g).1.filled p = true) ∧
    (∀ b, RaEvent.finalizePhis b ∈ (runPassSeal g).2 →
      List.Sublist [RaEvent.sealB b, RaEvent.finalizePhis b] (runPassSeal g).2 ∧
      ∀ p ∈ g.linearPreds b,
        List.Sublist [RaEvent.fillB p, RaEvent.finalizePhis b] (runPassSeal g).2) := by
  obtain ⟨h1, _, h3⟩ := runPassSeal_inv g
  exact ⟨h1, h3⟩

/-- Diamond control-flow graph used to exercise the sealing theorem. -/
def diamondCFG : CFG where
  nblocks := 4
  linearPreds := fun b => if b = 1 then [0] else if b = 2 then [0]
    else if b = 3 then [1, 2] else []
  linearSuccs := fun b => if b = 0 then [1, 2] else if b = 1 then [3]
    else if b = 2 then [3] else []

theorem c10_seal_after_preds_filled_witness :
    ((runPassSeal diamondCFG).1.sealedB 3 = true ∧
      ∀ p ∈ diamondCFG.linearPreds 3, (runPassSeal diamondCFG).1.filled p = true) ∧
    (RaEvent.finalizePhis 3 ∈ (runPassSeal diamondCFG).2 ∧
      List.Sublist [RaEvent.sealB 3, RaEvent.finalizePhis 3]
        (runPassSeal diamondCFG).2 ∧
      ∀ p ∈ diamondCFG.linearPreds 3,
        List.Sublist [RaEvent.fillB p, RaEvent.finalizePhis 3]
          (runPassSeal diamondCFG).2) :=
  ⟨⟨by decide, (c10_seal_after_preds_filled diamondCFG).1 3 (by decide)⟩,
   by decide,
   (c10_seal_after_preds_filled diamondCFG).2 3 (by decide)⟩

/-- Operand of an instruction. The `Operand` class itself lives in
`aco_ir.h` outside these sources; modelled from the spec's data model:
a virtual-value reference (temp id plus register class), its fixed
physical location (byte address), and the kill flags
(`isKill`/`isFirstKill`/`isLateKill`, with
`isKillBeforeDef = kill && !lateKill`). -/
structure MOperand where
  isTempO : Bool
  tempId : Nat
  rc : RegClass
  physRegB : Nat
  kill : Bool
  firstKill : Bool
  lateKill : Bool
deriving DecidableEq, Repr

/-- C++ `Operand::isKillBeforeDef()`. -/
def MOperand.isKillBeforeDef (op : MOperand) : Bool := op.kill && !op.lateKill

/-- C++ `Operand::isFirstKillBeforeDef()`. -/
def MOperand.isFirstKillBeforeDef (op : MOperand) : Bool :=
  op.firstKill && !op.lateKill

/-- Definition slot of an instruction (`Definition` in aco_ir.h,
modelled from the spec): produced temp id (0 while the parallel-copy
definition has not been given a fresh id yet, mirroring
`Definition::isTemp()`), register class, fixed physical location. -/
structure MDefinition where
  tempId : Nat
  rc : RegClass
  physRegB : Nat
deriving DecidableEq, Repr

/-- One parallel-copy entry: `(Operand, Definition)`. -/
def PCopy : Type := MOperand × MDefinition

/-- Allocation context slice used by `update_renames`: the program's
fresh-id counter (`allocateTmp`) and the append-only assignment table. -/
structure URCtx where
  nextTmpId : Nat
  assignments : List (Nat × RegClass)
deriving DecidableEq, Repr

/-- State mutated by `update_renames`: the context, the register file,
the parallel-copy vector (mutated in place), and the triggering
instruction's operand list. -/
structure URState where
  ctx : URCtx
  rf : RegisterFile
  pcs : List PCopy
  ops : List MOperand

/-- The chain-detection scan of `update_renames`: while processing one
copy, walk the whole vector and redirect the copy's source to the
source of any other (already id-carrying) copy whose destination temp it
names (`copy.first.setTemp(other.first.getTemp());
copy.first.setFixed(other.first.physReg())`). -/
def urChainScan (pcs : List PCopy) (op0 : MOperand) : MOperand :=
  pcs.foldl (fun o other =>
    if other.2.tempId ≠ 0 ∧ o.tempId = other.2.tempId ∧ o.rc = other.2.rc then
      { o with
        tempId := other.1.tempId
        rc := other.1.rc
        physRegB := other.1.physRegB }
    else o) op0

/-- The per-parallel-copy overlap test inside the omit-renaming check
(`def_reg > copy.first.physReg() ? copy.first.physReg() +
copy.first.size() <= def_reg.reg() : def_reg + pc.second.size() <=
copy.first.physReg().reg()`; byte-level comparison, unit-level
arithmetic, exactly as in the source). -/
def urNoOverlap (cFirst : MOperand) (pc : PCopy) : Bool :=
  if pc.2.physRegB > cFirst.physRegB then
    decide (cFirst.physRegB / 4 + cFirst.rc.size ≤ pc.2.physRegB / 4)
  else
    decide (pc.2.physRegB / 4 + pc.2.rc.size ≤ cFirst.physRegB / 4)

/-- The operand-renaming loop of `update_renames` over the triggering
instruction's operands, threading the `first` and `fill` flags exactly
as the C++ loop does; returns the rewritten operand list and the final
flags. -/
def urRenameOps (rnko : Bool) (cFirst : MOperand) (cSecond : MDefinition)
    (pcs : List PCopy) :
    List MOperand → Bool → Bool → (List MOperand × Bool × Bool)
  | [], first, fill => ([], first, fill)
  | op :: rest, first, fill =>
    if op.isTempO = false then
      let r := urRenameOps rnko cFirst cSecond pcs rest first fill
      (op :: r.1, r.2)
    else if op.tempId = cFirst.tempId then
      if ((!rnko && !op.isKillBeforeDef) &&
          pcs.all (fun pc => urNoOverlap cFirst pc)) then
        let op' := if first then { op with firstKill := true, kill := true }
                   else { op with kill := true }
        let r := urRenameOps rnko cFirst cSecond pcs rest false fill
        (op' :: r.1, r.2)
      else
        let op' := { op with
          tempId := cSecond.tempId
          rc := cSecond.rc
          physRegB := cSecond.physRegB }
        let r := urRenameOps rnko cFirst cSecond pcs rest first
          (!op.isKillBeforeDef)
        (op' :: r.1, r.2)
    else
      let r := urRenameOps rnko cFirst cSecond pcs rest first fill
      (op :: r.1, r.2)

/-- Processing of the parallel copy at index `i` in the second loop of
`update_renames`: skip already id-carrying entries, resolve chains,
allocate the fresh id, record the assignment, rename matching operands
of the triggering instruction, and fill the destination into the
register file unless the renamed operand is killed before the
definition. -/
def urStep (rnko : Bool) (st : URState) (i : Nat) : URState :=
  match st.pcs.get? i with
  | none => st
  | some c =>
    if c.2.tempId ≠ 0 then st
    else
      let f1 := urChainScan st.pcs c.1
      let newId := st.ctx.nextTmpId
      let c2 : PCopy := (f1, { c.2 with tempId := newId })
      let pcs2 := st.pcs.set i c2
      let ctx2 : URCtx := { nextTmpId := newId + 1
                            assignments := st.ctx.assignments ++ [(c.2.physRegB, c.2.rc)] }
      let r := urRenameOps rnko f1 c2.2 pcs2 st.ops true true
      let rf2 := if r.2.2 then st.rf.fillRc c2.2.physRegB c2.2.rc c2.2.tempId
                 else st.rf
      { ctx := ctx2, rf := rf2, pcs := pcs2, ops := r.1 }

/-- C++ `update_renames(ctx, reg_file, parallelcopies, instr,
rename_not_killed_ops)`: first clear the sources of all new copies from
the register file, then process each copy in vector order. -/
def update_renames (rnko : Bool) (st : URState) : URState :=
  let st1 : URState :=
    { st with rf := st.pcs.foldl (fun rf c =>
        if c.2.tempId ≠ 0 then rf else rf.clearRc c.1.physRegB c.1.rc) st.rf }
  (List.range st1.pcs.length).foldl (urStep rnko) st1

/-- Source operand used by the C6 order-dependence scenario. -/
def c6srcOp (id : Nat) (regB : Nat) : MOperand :=
  ⟨true, id, ⟨RegType.sgpr, 4, false, false⟩, regB, false, false, false⟩

/-- Fresh-destination slot used by the C6 scenario. -/
def c6dstDef (regB : Nat) : MDefinition :=
  { tempId := 0, rc := ⟨RegType.sgpr, 4, false, false⟩, physRegB := regB }

/-- Initial state of the C6 scenario: two one-unit values, id 10 at unit
1 and id 11 at unit 3, to be copied to units 2 and 4 respectively. -/
def c6state (pcs : List PCopy) : URState :=
  { ctx := { nextTmpId := 100, assignments := [] }
    rf := (emptyRegFile.fillFull 4 1 10).fillFull 12 1 11
    pcs := pcs
    ops := [] }

/-- C6: `update_renames` is not idempotent with respect to traversal
order. Applying the same logical batch {id 10: unit 1 → unit 2,
id 11: unit 3 → unit 4} in the two possible orders yields different
final register files: the copy processed first receives the fresh id
100 and the other 101, so unit 2 holds 100 in one order and 101 in the
other. -/
theorem c6_update_renames_order_dependent :
    (update_renames true (c6state
        [(c6srcOp 10 4, c6dstDef 8), (c6srcOp 11 12, c6dstDef 16)])).rf.regs 2
      = 100 ∧
    (update_renames true (c6state
        [(c6srcOp 11 12, c6dstDef 16), (c6srcOp 10 4, c6dstDef 8)])).rf.regs 2
      = 101 ∧
    (update_renames true (c6state
        [(c6srcOp 10 4, c6dstDef 8), (c6srcOp 11 12, c6dstDef 16)])).rf.regs 2
      ≠ (update_renames true (c6state
        [(c6srcOp 11 12, c6dstDef 16), (c6srcOp 10 4, c6dstDef 8)])).rf.regs 2 := by
  decide

/-!
Model of the SSA phi-resolution state and of `try_remove_trivial_phi`.

Temps are modelled by their ids alone (in the IR a `Temp` is an id plus
its register class, but the class of a given id is fixed across the
program — `program->temp_rc` — so id equality coincides with `Temp`
equality on well-formed states; `Temp()` is id 0, and non-temp/undef
operand slots carry temp id 0 as well, mirroring the `Operand` default).
Instructions are held in a store keyed by an instruction id standing in
for the C++ `Instruction*`.
-/

/-- Operand or definition slot as seen by the phi logic: temp id (0 for
non-temp slots) and fixed physical register (byte address). -/
structure PhiOp where
  tid : Nat
  physRegB : Nat
deriving DecidableEq, Repr

/-- Instruction as seen by the phi logic: whether it is a phi
(`p_phi`/`p_linear_phi`), its definition list (cleared to flag removal)
and its operand list. -/
structure PInstr where
  isPhiI : Bool
  pdefs : List PhiOp
  pops : List PhiOp
deriving DecidableEq, Repr

/-- C++ `phi_info`: the phi instruction, its block, and the recorded set
of instructions consuming its result. -/
structure PhiInfo where
  phiId : Nat
  blockIdx : Nat
  uses : List Nat
deriving DecidableEq, Repr

/-- Slice of `ra_ctx` used by `try_remove_trivial_phi`: the instruction
store, `phi_map`, the sealed-block set, the per-block rename maps and
`orig_names`. -/
structure PhiState where
  insts : AListT PInstr
  phiMap : AListT PhiInfo
  sealedList : List Nat
  renames : AListT (AListT Nat)
  orig_names : AListT Nat
  nblocks : Nat
deriving DecidableEq, Repr

/-- The triviality scan of `try_remove_trivial_phi` over the phi's
operands: skip operands equal to the running `same` or to the phi's own
definition; fail (return, no removal) when a second distinct value
appears or when the operand's register differs from the definition's;
otherwise adopt the operand as `same`. Returns the common value on
success (0 when every operand was the phi's own definition). -/
def trivialScan (defT defR : Nat) : List PhiOp → Nat → Option Nat
  | [], same => some same
  | op :: rest, same =>
    if op.tid = same ∨ op.tid = defT then trivialScan defT defR rest same
    else if same ≠ 0 ∨ op.physRegB ≠ defR then none
    else trivialScan defT defR rest op.tid

/-- Rewrite every operand that names the removed phi's definition to the
common value instead (`op.setTemp(same)`, register kept). -/
def rewriteOps (defId same : Nat) (inst : PInstr) : PInstr :=
  { inst with pops := inst.pops.map fun op =>
      if op.tid = defId then { op with tid := same } else op }

/-- Ordered-set insertion for a `std::set` of instruction ids. -/
def usesInsert : List Nat → Nat → List Nat
  | [], x => [x]
  | y :: t, x =>
    if x < y then x :: y :: t
    else if x = y then y :: t
    else y :: usesInsert t x

/-- Collection of phi users during the removal loop: a phi consuming
the removed value whose own definition differs from the removed temp is
queued for the recursive triviality check. -/
def phiUserCollect (argT : Nat) (inst : PInstr) (users : List Nat) : List Nat :=
  match inst.isPhiI, inst.pdefs.head? with
  | true, some d => if d.tid ≠ argT then users ++ [d.tid] else users
  | _, _ => users

/-- Record instruction `u` as a use of `same` (when `same` is a live phi
and `u` actually consumed the removed value), mirroring
`same_phi_info->second.uses.emplace(instr)`. -/
def pmAddUse (pm : AListT PhiInfo) (same u : Nat) (hasRef : Bool) :
    AListT PhiInfo :=
  match afind pm same with
  | none => pm
  | some sinfo =>
    if hasRef then
      astore pm same { sinfo with uses := usesInsert sinfo.uses u }
    else pm

/-- Per-use body of the removal loop of `try_remove_trivial_phi`:
skip phis already flagged trivial, collect phi users for the recursive
clean-up, rewrite the instruction's operands, and record the instruction
as a use of `same` when it consumed the removed phi. `argT` is the
`temp` argument, `defId` the phi definition's temp id. -/
def phiRewriteStep (argT defId same : Nat) (acc : PhiState × List Nat) (u : Nat) :
    PhiState × List Nat :=
  match afind acc.1.insts u with
  | none => acc
  | some inst =>
    if inst.isPhiI = true ∧ inst.pdefs = [] then acc
    else
      ({ acc.1 with
          insts := astore acc.1.insts u (rewriteOps defId same inst)
          phiMap := pmAddUse acc.1.phiMap same u
            (inst.pops.any fun op => decide (op.tid = defId)) },
       phiUserCollect argT inst acc.2)

/-- The rename-map fix-up of `try_remove_trivial_phi`: for every block,
if the block's rename of the original variable is the removed phi's
definition, redirect it to `same`. -/
def phiRenameFix (defId same : Nat) (s : PhiState) : PhiState :=
  let origVar :=
    match afind s.orig_names same with
    | some o => o
    | none => same
  { s with renames := (List.range s.nblocks).foldl (fun rn i =>
      match afind rn i with
      | none => rn
      | some m =>
        match afind m origVar with
        | some tm => if tm = defId then astore rn i (astore m origVar same) else rn
        | none => rn) s.renames }

/-- Tail of the removal: clear the phi's definition list (flagging it for
deletion at the end of the pass) and erase the phi-map entry. -/
def performRemovalS (s2 : PhiState) (t : Nat) (info : PhiInfo) : PhiState :=
  { s2 with
      insts :=
        match afind s2.insts info.phiId with
        | none => s2.insts
        | some ph2 => astore s2.insts info.phiId { ph2 with pdefs := [] }
      phiMap := aerase s2.phiMap t }

/-- The removal itself, once the triviality scan has succeeded: rewrite
the uses, fix the rename maps, clear the phi's definitions, and erase
the phi-map entry; returns the new state and the collected phi users. -/
def performRemoval (s : PhiState) (t : Nat) (info : PhiInfo) (dhead : PhiOp)
    (same : Nat) : PhiState × List Nat :=
  (performRemovalS
      (phiRenameFix dhead.tid same
        ((info.uses.foldl (phiRewriteStep t dhead.tid same) (s, [])).1))
      t info,
   (info.uses.foldl (phiRewriteStep t dhead.tid same) (s, [])).2)

/-- The non-recursive part of `try_remove_trivial_phi`: look up the phi,
require the block sealed, run the triviality scan, and on success
perform the removal, returning the new state and the collected phi
users; `none` means the function returns without removing anything. -/
def tryRemoveCheck (s : PhiState) (t : Nat) : Option (PhiState × List Nat) :=
  match afind s.phiMap t with
  | none => none
  | some info =>
    if s.sealedList.contains info.blockIdx = false then none
    else
      match afind s.insts info.phiId with
      | none => none
      | some phi =>
        match phi.pdefs with
        | [] => none
        | dhead :: _ =>
          match trivialScan dhead.tid dhead.physRegB phi.pops 0 with
          | none => none
          | some same => some (performRemoval s t info dhead same)

mutual
/-- C++ `try_remove_trivial_phi(ctx, temp)`, with an explicit fuel
parameter bounding the recursion depth (the C++ recursion is bounded by
the phi-map size, proved below); `none` only on fuel exhaustion. -/
def try_remove_trivial_phi : Nat → PhiState → Nat → Option PhiState
  | 0, _, _ => none
  | fuel + 1, s, t =>
    match tryRemoveCheck s t with
    | none => some s
    | some (s1, users) => tryRemoveFold fuel s1 users
termination_by fuel _ _ => (fuel, 0)

/-- Recursive clean-up over the collected phi users. -/
def tryRemoveFold : Nat → PhiState → List Nat → Option PhiState
  | _, s, [] => some s
  | fuel, s, u :: rest =>
    match try_remove_trivial_phi fuel s u with
    | none => none
    | some s' => tryRemoveFold fuel s' rest
termination_by fuel _ users => (fuel, users.length + 1)
end

theorem afind_mem {α : Type} (m : AListT α) (k : Nat) (v : α)
    (h : afind m k = some v) : (k, v) ∈ m := by
  induction m with
  | nil => cases h
  | cons p t ih =>
    rcases p with ⟨k', v'⟩
    by_cases hk : k = k'
    · subst hk
      simp [afind] at h
      subst h
      exact List.mem_cons_self _ _
    · simp [afind, hk] at h
      exact List.mem_cons_of_mem _ (ih h)

/-- Keys strictly ascending: the representation invariant of the
`std::map` model (maintained by `astore`/`aerase`). -/
def KeySorted {α : Type} (m : AListT α) : Prop :=
  List.Pairwise (fun a b => a.1 < b.1) m

theorem mem_astore {α : Type} :
    ∀ (m : AListT α) (k : Nat) (v : α) (b : Nat × α),
      b ∈ astore m k v → b = (k, v) ∨ b ∈ m := by
  intro m
  induction m with
  | nil =>
    intro k v b hb
    rw [astore] at hb
    rcases List.mem_singleton.mp hb with rfl
    exact Or.inl rfl
  | cons p t ih =>
    intro k v b hb
    rcases p with ⟨k', v'⟩
    by_cases hlt : k < k'
    · rw [astore, if_pos hlt] at hb
      rcases List.mem_cons.mp hb with rfl | hb
      · exact Or.inl rfl
      · exact Or.inr hb
    · by_cases heq : k = k'
      · rw [astore, if_neg hlt, if_pos heq] at hb
        rcases List.mem_cons.mp hb with rfl | hb
        · exact Or.inl rfl
        · exact Or.inr (List.mem_cons_of_mem _ hb)
      · rw [astore, if_neg hlt, if_neg heq] at hb
        rcases List.mem_cons.mp hb with rfl | hb
        · exact Or.inr (List.mem_cons_self _ _)
        · rcases ih k v b hb with h | h
          · exact Or.inl h
          · exact Or.inr (List.mem_cons_of_mem _ h)

theorem astore_sorted {α : Type} :
    ∀ (m : AListT α) (k : Nat) (v : α),
      KeySorted m → KeySorted (astore m k v) := by
  intro m
  induction m with
  | nil =>
    intro k v _
    rw [astore]
    exact List.pairwise_singleton _ _
  | cons p t ih =>
    intro k v hp
    rcases p with ⟨k', v'⟩
    obtain ⟨h1, h2⟩ := List.pairwise_cons.mp hp
    by_cases hlt : k < k'
    · rw [astore, if_pos hlt]
      refine List.pairwise_cons.mpr ⟨?_, hp⟩
      intro b hb
      rcases List.mem_cons.mp hb with rfl | hb
      · exact hlt
      · have := h1 b hb
        simp only at this ⊢
        omega
    · by_cases heq : k = k'
      · subst heq
        rw [astore, if_neg hlt, if_pos rfl]
        exact List.pairwise_cons.mpr ⟨fun b hb => h1 b hb, h2⟩
      · rw [astore, if_neg hlt, if_neg heq]
        refine List.pairwise_cons.mpr ⟨?_, ih k v h2⟩
        intro b hb
        rcases mem_astore t k v b hb with rfl | hb
        · simp only
          omega
        · exact h1 b hb

theorem astore_length_of_found {α : Type} :
    ∀ (m : AListT α) (k : Nat) (v w : α),
      KeySorted m → afind m k = some w → (astore m k v).length = m.length := by
  intro m
  induction m with
  | nil =>
    intro k v w _ h
    cases h
  | cons p t ih =>
    intro k v w hp h
    rcases p with ⟨k', v'⟩
    by_cases hk : k = k'
    · subst hk
      rw [astore, if_neg (lt_irrefl _), if_pos rfl]
      simp
    · simp only [afind, hk, if_false] at h
      have hmem := afind_mem t k w h
      have hk'k : k' < k := (List.pairwise_cons.mp hp).1 (k, w) hmem
      rw [astore, if_neg (by omega), if_neg hk]
      simp [ih k v w (List.pairwise_cons.mp hp).2 h]

theorem aerase_sublist {α : Type} :
    ∀ (m : AListT α) (k : Nat), List.Sublist (aerase m k) m := by
  intro m
  induction m with
  | nil => intro k; exact List.Sublist.refl _
  | cons p t ih =>
    intro k
    rcases p with ⟨k', v'⟩
    by_cases hk : k' = k
    · rw [aerase, if_pos hk]
      exact (ih k).cons _
    · rw [aerase, if_neg hk]
      exact (ih k).cons₂ _

theorem aerase_sorted {α : Type} (m : AListT α) (k : Nat)
    (h : KeySorted m) : KeySorted (aerase m k) :=
  List.Pairwise.sublist (aerase_sublist m k) h

theorem aerase_length_lt {α : Type} :
    ∀ (m : AListT α) (k : Nat) (w : α),
      afind m k = some w → (aerase m k).length < m.length := by
  intro m
  induction m with
  | nil =>
    intro k w h
    cases h
  | cons p t ih =>
    intro k w h
    rcases p with ⟨k', v'⟩
    by_cases hk : k' = k
    · rw [aerase, if_pos hk]
      have := (aerase_sublist t k).length_le
      simp only [List.length_cons]
      omega
    · have hk2 : k ≠ k' := fun hc => hk hc.symm
      simp only [afind, hk2, if_false] at h
      rw [aerase, if_neg hk]
      simp only [List.length_cons]
      exact Nat.succ_lt_succ (ih k w h)

theorem usesInsert_mem :
    ∀ (l : List Nat) (x a : Nat), a ∈ usesInsert l x ↔ a = x ∨ a ∈ l := by
  intro l
  induction l with
  | nil =>
    intro x a
    simp [usesInsert]
  | cons y t ih =>
    intro x a
    by_cases h1 : x < y
    · rw [usesInsert, if_pos h1]
      simp only [List.mem_cons]
    · by_cases h2 : x = y
      · subst h2
        rw [usesInsert, if_neg h1, if_pos rfl]
        constructor
        · intro h
          exact Or.inr h
        · intro h
          rcases h with rfl | h
          · exact List.mem_cons_self _ _
          · exact h
      · rw [usesInsert, if_neg h1, if_neg h2]
        simp only [List.mem_cons, ih]
        tauto

theorem rewriteOps_isPhiI (defId same : Nat) (inst : PInstr) :
    (rewriteOps defId same inst).isPhiI = inst.isPhiI := rfl

theorem rewriteOps_pdefs (defId same : Nat) (inst : PInstr) :
    (rewriteOps defId same inst).pdefs = inst.pdefs := rfl

theorem rewriteOps_mem (defId same : Nat) (inst : PInstr) (op' : PhiOp)
    (h : op' ∈ (rewriteOps defId same inst).pops) :
    op'.tid = same ∨ (op' ∈ inst.pops ∧ op'.tid ≠ defId) := by
  rw [rewriteOps] at h
  simp only [List.mem_map] at h
  obtain ⟨op, hop, heq⟩ := h
  by_cases hd : op.tid = defId
  · rw [if_pos hd] at heq
    subst heq
    exact Or.inl rfl
  · rw [if_neg hd] at heq
    subst heq
    exact Or.inr ⟨hop, hd⟩

theorem rewriteOps_no_defId (defId same : Nat) (inst : PInstr)
    (hne : same ≠ defId) (op' : PhiOp)
    (h : op' ∈ (rewriteOps defId same inst).pops) : op'.tid ≠ defId := by
  rcases rewriteOps_mem defId same inst op' h with h1 | h1
  · rw [h1]
    exact hne
  · exact h1.2

theorem rewriteOps_idem (defId same : Nat) (inst : PInstr) (hne : same ≠ defId) :
    rewriteOps defId same (rewriteOps defId same inst) =
      rewriteOps defId same inst := by
  simp only [rewriteOps, List.map_map]
  congr 1
  apply List.map_congr_left
  intro op _
  simp only [Function.comp_apply]
  by_cases hd : op.tid = defId
  · rw [if_pos hd]
    show (if (PhiOp.mk same op.physRegB).tid = defId then _ else _) = _
    rw [if_neg hne]
  · rw [if_neg hd, if_neg hd]

theorem trivialScan_source (defT defR : Nat) :
    ∀ (ops : List PhiOp) (s0 same : Nat),
      trivialScan defT defR ops s0 = some same →
      same = s0 ∨ (∃ op ∈ ops, op.tid = same ∧ op.tid ≠ defT) := by
  intro ops
  induction ops with
  | nil =>
    intro s0 same h
    rw [trivialScan] at h
    exact Or.inl (Option.some.inj h).symm
  | cons op rest ih =>
    intro s0 same h
    rw [trivialScan] at h
    by_cases h1 : op.tid = s0 ∨ op.tid = defT
    · rw [if_pos h1] at h
      rcases ih s0 same h with h2 | ⟨op2, hop2, h3⟩
      · exact Or.inl h2
      · exact Or.inr ⟨op2, List.mem_cons_of_mem _ hop2, h3⟩
    · rw [if_neg h1] at h
      by_cases h2 : s0 ≠ 0 ∨ op.physRegB ≠ defR
      · rw [if_pos h2] at h
        cases h
      · rw [if_neg h2] at h
        push_neg at h1
        rcases ih op.tid same h with h3 | ⟨op2, hop2, h4⟩
        · exact Or.inr ⟨op, List.mem_cons_self _ _, h3 ▸ rfl, h3 ▸ h1.2⟩
        · exact Or.inr ⟨op2, List.mem_cons_of_mem _ hop2, h4⟩

/-- An instruction that will survive the end-of-pass cleanup (phis whose
definitions were cleared are deleted there). -/
def Remaining (inst : PInstr) : Prop := inst.isPhiI = false ∨ inst.pdefs ≠ []

instance (inst : PInstr) : Decidable (Remaining inst) := by
  unfold Remaining; infer_instance

/-- No surviving instruction names temp id `d` in an operand. -/
def NotRef (s : PhiState) (d : Nat) : Prop :=
  ∀ i inst, afind s.insts i = some inst → Remaining inst →
    ∀ op ∈ inst.pops, op.tid ≠ d

/-- Well-formedness of the phi map as the pass maintains it: every entry
has a nonzero key, its instruction is a phi whose first definition
carries the key, and the recorded use set covers every surviving
instruction that names the key in an operand (the phi itself excepted —
a self-referential phi is not recorded in its own use set). -/
def PhiWF (s : PhiState) : Prop :=
  ∀ k info, afind s.phiMap k = some info →
    k ≠ 0 ∧
    (∃ inst d rest, afind s.insts info.phiId = some inst ∧
      inst.isPhiI = true ∧ inst.pdefs = d :: rest ∧ d.tid = k) ∧
    (∀ i inst, afind s.insts i = some inst → Remaining inst →
      (∃ op ∈ inst.pops, op.tid = k) → i = info.phiId ∨ i ∈ info.uses)

theorem pmAddUse_other (pm : AListT PhiInfo) (same u : Nat) (b : Bool)
    (k : Nat) (hk : k ≠ same) :
    afind (pmAddUse pm same u b) k = afind pm k := by
  unfold pmAddUse
  cases hs : afind pm same with
  | none => rfl
  | some sinfo =>
    cases b with
    | false => rfl
    | true =>
      simp only [if_pos rfl]
      exact afind_astore_other _ _ _ _ hk

theorem pmAddUse_same (pm : AListT PhiInfo) (same u : Nat) (b : Bool) :
    (afind pm same = none → afind (pmAddUse pm same u b) same = none) ∧
    (∀ sinfo, afind pm same = some sinfo →
      ∃ info', afind (pmAddUse pm same u b) same = some info' ∧
        info'.phiId = sinfo.phiId ∧ info'.blockIdx = sinfo.blockIdx ∧
        (∀ x ∈ sinfo.uses, x ∈ info'.uses) ∧
        (b = true → u ∈ info'.uses)) := by
  unfold pmAddUse
  cases hs : afind pm same with
  | none =>
    refine ⟨fun _ => hs, ?_⟩
    intro sinfo h
    cases h
  | some sinfo =>
    constructor
    · intro h
      cases h
    · intro sinfo2 h2
      cases h2
      cases b with
      | false =>
        exact ⟨sinfo, hs, rfl, rfl, fun x hx => hx, fun hc => Bool.noConfusion hc⟩
      | true =>
        simp only [if_pos rfl]
        refine ⟨_, afind_astore_self _ _ _, rfl, rfl, ?_, ?_⟩
        · intro x hx
          exact (usesInsert_mem _ _ _).mpr (Or.inr hx)
        · intro _
          exact (usesInsert_mem _ _ _).mpr (Or.inl rfl)

theorem pmAddUse_length (pm : AListT PhiInfo) (same u : Nat) (b : Bool)
    (hs : KeySorted pm) :
    (pmAddUse pm same u b).length = pm.length := by
  unfold pmAddUse
  cases hf : afind pm same with
  | none => rfl
  | some sinfo =>
    cases b with
    | false => rfl
    | true =>
      simp only [if_pos rfl]
      exact astore_length_of_found _ _ _ _ hs hf

theorem pmAddUse_sorted (pm : AListT PhiInfo) (same u : Nat) (b : Bool)
    (hs : KeySorted pm) : KeySorted (pmAddUse pm same u b) := by
  unfold pmAddUse
  cases hf : afind pm same with
  | none => exact hs
  | some sinfo =>
    cases b with
    | false => exact hs
    | true =>
      simp only [if_pos rfl]
      exact astore_sorted _ _ _ hs

/-- Invariant carried through the removal loop of one
`try_remove_trivial_phi` call (relative to the starting state `s`):
each instruction is either untouched or rewritten once (with the
rewritten consumers recorded in `same`'s use set when `same` is live);
the phi map keeps its keys, lengths, and per-entry identities with
use sets only growing; the remaining context fields are untouched. -/
def FoldInv (s : PhiState) (defT same : Nat) (acc : PhiState × List Nat) : Prop :=
  (∀ i, afind acc.1.insts i = afind s.insts i ∨
    ∃ inst, afind s.insts i = some inst ∧
      afind acc.1.insts i = some (rewriteOps defT same inst) ∧
      ((∃ op ∈ inst.pops, op.tid = defT) →
        ∀ infoS, afind acc.1.phiMap same = some infoS → i ∈ infoS.uses)) ∧
  (∀ k info, afind s.phiMap k = some info →
    ∃ info', afind acc.1.phiMap k = some info' ∧
      info'.phiId = info.phiId ∧ info'.blockIdx = info.blockIdx ∧
      ∀ x ∈ info.uses, x ∈ info'.uses) ∧
  (∀ k, afind s.phiMap k = none → afind acc.1.phiMap k = none) ∧
  acc.1.phiMap.length = s.phiMap.length ∧
  KeySorted acc.1.phiMap ∧
  acc.1.sealedList = s.sealedList ∧ acc.1.renames = s.renames ∧
  acc.1.orig_names = s.orig_names ∧ acc.1.nblocks = s.nblocks

theorem foldInv_init (s : PhiState) (defT same : Nat)
    (hsort : KeySorted s.phiMap) : FoldInv s defT same (s, []) := by
  refine ⟨fun i => Or.inl rfl, ?_, fun k h => h, rfl, hsort, rfl, rfl, rfl, rfl⟩
  intro k info h
  exact ⟨info, h, rfl, rfl, fun x hx => hx⟩

theorem phiRewriteStep_none (argT defT same : Nat) (acc : PhiState × List Nat)
    (u : Nat) (h : afind acc.1.insts u = none) :
    phiRewriteStep argT defT same acc u = acc := by
  unfold phiRewriteStep
  rw [h]

theorem phiRewriteStep_skip (argT defT same : Nat) (acc : PhiState × List Nat)
    (u : Nat) (inst : PInstr) (h : afind acc.1.insts u = some inst)
    (hskip : inst.isPhiI = true ∧ inst.pdefs = []) :
    phiRewriteStep argT defT same acc u = acc := by
  unfold phiRewriteStep
  rw [h]
  exact if_pos hskip

theorem phiRewriteStep_rewrite (argT defT same : Nat) (acc : PhiState × List Nat)
    (u : Nat) (inst : PInstr) (h : afind acc.1.insts u = some inst)
    (hskip : ¬(inst.isPhiI = true ∧ inst.pdefs = [])) :
    phiRewriteStep argT defT same acc u =
      ({ acc.1 with
          insts := astore acc.1.insts u (rewriteOps defT same inst)
          phiMap := pmAddUse acc.1.phiMap same u
            (inst.pops.any fun op => decide (op.tid = defT)) },
       phiUserCollect argT inst acc.2) := by
  unfold phiRewriteStep
  rw [h]
  exact if_neg hskip

theorem phiRewriteStep_foldInv (argT defT same : Nat) (s : PhiState)
    (hsame : same ≠ defT) (acc : PhiState × List Nat) (u : Nat)
    (h : FoldInv s defT same acc) :
    FoldInv s defT same (phiRewriteStep argT defT same acc u) := by
  obtain ⟨hJ, hPM, hPMn, hlen, hsort, hsl, hrn, hon, hnb⟩ := h
  cases hcur : afind acc.1.insts u with
  | none =>
    rw [phiRewriteStep_none argT defT same acc u hcur]
    exact ⟨hJ, hPM, hPMn, hlen, hsort, hsl, hrn, hon, hnb⟩
  | some inst =>
    by_cases hskip : inst.isPhiI = true ∧ inst.pdefs = []
    · rw [phiRewriteStep_skip argT defT same acc u inst hcur hskip]
      exact ⟨hJ, hPM, hPMn, hlen, hsort, hsl, hrn, hon, hnb⟩
    · rw [phiRewriteStep_rewrite argT defT same acc u inst hcur hskip]
      refine ⟨?_, ?_, ?_, ?_, ?_, hsl, hrn, hon, hnb⟩
      · -- instruction store: untouched or rewritten-once
        intro i
        by_cases hiu : i = u
        · subst hiu
          right
          rcases hJ i with h1 | ⟨inst0, horig, hacc, himp⟩
          · refine ⟨inst, by rw [← h1, hcur], ?_, ?_⟩
            · show afind (astore acc.1.insts i (rewriteOps defT same inst)) i = _
              rw [afind_astore_self]
            · intro hex infoS hfindS
              have hbt : (inst.pops.any fun op => decide (op.tid = defT)) = true := by
                obtain ⟨op, hop, htid⟩ := hex
                exact List.any_eq_true.mpr ⟨op, hop, by simp [htid]⟩
              cases hold : afind acc.1.phiMap same with
              | none =>
                rw [(pmAddUse_same acc.1.phiMap same i _).1 hold] at hfindS
                cases hfindS
              | some sinfo =>
                obtain ⟨info', hfind', _, _, _, hins⟩ :=
                  (pmAddUse_same acc.1.phiMap same i
                    (inst.pops.any fun op => decide (op.tid = defT))).2 sinfo hold
                rw [hfind'] at hfindS
                cases hfindS
                exact hins hbt
          · have hinst : inst = rewriteOps defT same inst0 := by
              rw [hcur] at hacc
              exact Option.some.inj hacc
            refine ⟨inst0, horig, ?_, ?_⟩
            · show afind (astore acc.1.insts i (rewriteOps defT same inst)) i = _
              rw [afind_astore_self, hinst, rewriteOps_idem _ _ _ hsame]
            · intro hex infoS hfindS
              cases hold : afind acc.1.phiMap same with
              | none =>
                rw [(pmAddUse_same acc.1.phiMap same i _).1 hold] at hfindS
                cases hfindS
              | some sinfo =>
                obtain ⟨info', hfind', _, _, hsup, _⟩ :=
                  (pmAddUse_same acc.1.phiMap same i
                    (inst.pops.any fun op => decide (op.tid = defT))).2 sinfo hold
                rw [hfind'] at hfindS
                cases hfindS
                exact hsup _ (himp hex sinfo hold)
        · rcases hJ i with h1 | ⟨inst0, horig, hacc, himp⟩
          · left
            show afind (astore acc.1.insts u (rewriteOps defT same inst)) i = _
            rw [afind_astore_other _ _ _ _ hiu, h1]
          · right
            refine ⟨inst0, horig, ?_, ?_⟩
            · show afind (astore acc.1.insts u (rewriteOps defT same inst)) i = _
              rw [afind_astore_other _ _ _ _ hiu, hacc]
            · intro hex infoS hfindS
              cases hold : afind acc.1.phiMap same with
              | none =>
                rw [(pmAddUse_same acc.1.phiMap same u _).1 hold] at hfindS
                cases hfindS
              | some sinfo =>
                obtain ⟨info', hfind', _, _, hsup, _⟩ :=
                  (pmAddUse_same acc.1.phiMap same u
                    (inst.pops.any fun op => decide (op.tid = defT))).2 sinfo hold
                rw [hfind'] at hfindS
                cases hfindS
                exact hsup _ (himp hex sinfo hold)
      · -- phi map entries: identities preserved, use sets grow
        intro k info hk
        obtain ⟨info1, hfind1, hphi, hblk, hsup⟩ := hPM k info hk
        by_cases hks : k = same
        · subst hks
          obtain ⟨info', hfind', hphi', hblk', hsup', _⟩ :=
            (pmAddUse_same acc.1.phiMap k u
              (inst.pops.any fun op => decide (op.tid = defT))).2 info1 hfind1
          exact ⟨info', hfind', hphi'.trans hphi, hblk'.trans hblk,
            fun x hx => hsup' x (hsup x hx)⟩
        · refine ⟨info1, ?_, hphi, hblk, hsup⟩
          show afind (pmAddUse acc.1.phiMap same u _) k = some info1
          rw [pmAddUse_other _ _ _ _ _ hks]
          exact hfind1
      · -- absent keys stay absent
        intro k hk
        have h1 := hPMn k hk
        by_cases hks : k = same
        · subst hks
          exact (pmAddUse_same acc.1.phiMap k u _).1 h1
        · show afind (pmAddUse acc.1.phiMap same u _) k = none
          rw [pmAddUse_other _ _ _ _ _ hks]
          exact h1
      · show (pmAddUse acc.1.phiMap same u _).length = s.phiMap.length
        rw [pmAddUse_length _ _ _ _ hsort, hlen]
      · exact pmAddUse_sorted _ _ _ _ hsort

theorem phiFold_foldInv (argT defT same : Nat) (s : PhiState)
    (hsame : same ≠ defT) :
    ∀ (uses : List Nat) (acc : PhiState × List Nat),
      FoldInv s defT same acc →
      FoldInv s defT same (uses.foldl (phiRewriteStep argT defT same) acc) := by
  intro uses
  induction uses with
  | nil => intro acc h; exact h
  | cons u rest ih =>
    intro acc h
    exact ih _ (phiRewriteStep_foldInv argT defT same s hsame acc u h)

theorem phiRenameFix_insts (defId same : Nat) (st : PhiState) :
    (phiRenameFix defId same st).insts = st.insts := rfl

theorem phiRenameFix_phiMap (defId same : Nat) (st : PhiState) :
    (phiRenameFix defId same st).phiMap = st.phiMap := rfl

theorem phiRenameFix_sealedList (defId same : Nat) (st : PhiState) :
    (phiRenameFix defId same st).sealedList = st.sealedList := rfl

/-- After the removal loop has visited every recorded use, no surviving
instruction other than the phi itself names the phi's definition. -/
theorem phiFold_pending (argT defT same phiId : Nat) (hsame : same ≠ defT) :
    ∀ (uses : List Nat) (acc : PhiState × List Nat),
      (∀ i inst, afind acc.1.insts i = some inst → Remaining inst →
        (∃ op ∈ inst.pops, op.tid = defT) → i = phiId ∨ i ∈ uses) →
      ∀ i inst,
        afind (uses.foldl (phiRewriteStep argT defT same) acc).1.insts i
          = some inst →
        Remaining inst → (∃ op ∈ inst.pops, op.tid = defT) → i = phiId := by
  intro uses
  induction uses with
  | nil =>
    intro acc hp i inst hfind hrem hex
    rcases hp i inst hfind hrem hex with h | h
    · exact h
    · cases h
  | cons u rest ih =>
    intro acc hp
    apply ih
    intro i inst hfind hrem hex
    cases hcur : afind acc.1.insts u with
    | none =>
      rw [phiRewriteStep_none argT defT same acc u hcur] at hfind
      rcases hp i inst hfind hrem hex with h | h
      · exact Or.inl h
      · rcases List.mem_cons.mp h with rfl | h2
        · rw [hcur] at hfind
          cases hfind
        · exact Or.inr h2
    | some inst0 =>
      by_cases hskip : inst0.isPhiI = true ∧ inst0.pdefs = []
      · rw [phiRewriteStep_skip argT defT same acc u inst0 hcur hskip] at hfind
        rcases hp i inst hfind hrem hex with h | h
        · exact Or.inl h
        · rcases List.mem_cons.mp h with rfl | h2
          · rw [hcur] at hfind
            cases hfind
            exfalso
            rcases hrem with hr | hr
            · rw [hskip.1] at hr
              cases hr
            · exact hr hskip.2
          · exact Or.inr h2
      · rw [phiRewriteStep_rewrite argT defT same acc u inst0 hcur hskip] at hfind
        replace hfind :
            afind (astore acc.1.insts u (rewriteOps defT same inst0)) i
              = some inst := hfind
        by_cases hiu : i = u
        · subst hiu
          rw [afind_astore_self] at hfind
          cases hfind
          obtain ⟨op, hop, htid⟩ := hex
          exact absurd htid (rewriteOps_no_defId _ _ _ hsame op hop)
        · rw [afind_astore_other _ _ _ _ hiu] at hfind
          rcases hp i inst hfind hrem hex with h | h
          · exact Or.inl h
          · rcases List.mem_cons.mp h with rfl | h2
            · exact absurd rfl hiu
            · exact Or.inr h2

instance {α : Type} (m : AListT α) : Decidable (KeySorted m) := by
  unfold KeySorted
  infer_instance

theorem tryRemove_zero (s : PhiState) (t : Nat) :
    try_remove_trivial_phi 0 s t = none := by
  rw [try_remove_trivial_phi]

theorem tryRemove_succ (fuel : Nat) (s : PhiState) (t : Nat) :
    try_remove_trivial_phi (fuel + 1) s t =
      match tryRemoveCheck s t with
      | none => some s
      | some (s1, users) => tryRemoveFold fuel s1 users := by
  rw [try_remove_trivial_phi]

theorem tryRemoveFold_nil (fuel : Nat) (s : PhiState) :
    tryRemoveFold fuel s [] = some s := by
  rw [tryRemoveFold]

theorem tryRemoveFold_cons (fuel : Nat) (s : PhiState) (u : Nat)
    (rest : List Nat) :
    tryRemoveFold fuel s (u :: rest) =
      match try_remove_trivial_phi fuel s u with
      | none => none
      | some s' => tryRemoveFold fuel s' rest := by
  rw [tryRemoveFold]

/-- Destructuring a successful check-and-remove call. -/
theorem tryRemoveCheck_unpack (s : PhiState) (t : Nat) (s1 : PhiState)
    (users : List Nat) (h : tryRemoveCheck s t = some (s1, users)) :
    ∃ info phi dhead rest0 same,
      afind s.phiMap t = some info ∧
      s.sealedList.contains info.blockIdx = true ∧
      afind s.insts info.phiId = some phi ∧
      phi.pdefs = dhead :: rest0 ∧
      trivialScan dhead.tid dhead.physRegB phi.pops 0 = some same ∧
      performRemoval s t info dhead same = (s1, users) := by
  unfold tryRemoveCheck at h
  cases hfind : afind s.phiMap t with
  | none => simp only [hfind] at h; cases h
  | some info =>
    simp only [hfind] at h
    by_cases hsl : s.sealedList.contains info.blockIdx = false
    · rw [if_pos hsl] at h; cases h
    · rw [if_neg hsl] at h
      have hsl2 : s.sealedList.contains info.blockIdx = true := by
        cases hc : s.sealedList.contains info.blockIdx
        · exact absurd hc hsl
        · rfl
      cases hinst : afind s.insts info.phiId with
      | none => simp only [hinst] at h; cases h
      | some phi =>
        simp only [hinst] at h
        cases hdefs : phi.pdefs with
        | nil => simp only [hdefs] at h; cases h
        | cons dhead rest0 =>
          simp only [hdefs] at h
          cases hscan : trivialScan dhead.tid dhead.physRegB phi.pops 0 with
          | none => simp only [hscan] at h; cases h
          | some same =>
            simp only [hscan, Option.some.injEq] at h
            exact ⟨info, phi, dhead, rest0, same, rfl, hsl2, hinst, hdefs,
              hscan, h⟩

theorem rewriteOps_remaining (defId same : Nat) (inst : PInstr) :
    Remaining (rewriteOps defId same inst) ↔ Remaining inst := by
  unfold Remaining
  rw [rewriteOps_isPhiI, rewriteOps_pdefs]

theorem rewriteOps_mem_strong (defId same : Nat) (inst : PInstr) (op' : PhiOp)
    (h : op' ∈ (rewriteOps defId same inst).pops) :
    (op' ∈ inst.pops ∧ op'.tid ≠ defId) ∨
    (op'.tid = same ∧ ∃ op0 ∈ inst.pops, op0.tid = defId) := by
  rw [rewriteOps] at h
  simp only [List.mem_map] at h
  obtain ⟨op0, hop0, heq⟩ := h
  by_cases hd : op0.tid = defId
  · rw [if_pos hd] at heq
    subst heq
    exact Or.inr ⟨rfl, op0, hop0, hd⟩
  · rw [if_neg hd] at heq
    subst heq
    exact Or.inl ⟨hop0, hd⟩

/-- The removal loop never creates phi-map keys. -/
theorem phiFold_pm_none (argT defT same d : Nat) :
    ∀ (uses : List Nat) (acc : PhiState × List Nat),
      afind acc.1.phiMap d = none →
      afind (uses.foldl (phiRewriteStep argT defT same) acc).1.phiMap d
        = none := by
  intro uses
  induction uses with
  | nil => intro acc h; exact h
  | cons u rest ih =>
    intro acc h
    apply ih
    cases hcur : afind acc.1.insts u with
    | none =>
      rw [phiRewriteStep_none argT defT same acc u hcur]
      exact h
    | some inst =>
      by_cases hskip : inst.isPhiI = true ∧ inst.pdefs = []
      · rw [phiRewriteStep_skip argT defT same acc u inst hcur hskip]
        exact h
      · rw [phiRewriteStep_rewrite argT defT same acc u inst hcur hskip]
        show afind (pmAddUse acc.1.phiMap same u _) d = none
        by_cases hds : d = same
        · subst hds
          exact (pmAddUse_same acc.1.phiMap d u _).1 h
        · rw [pmAddUse_other _ _ _ _ _ hds]
          exact h

/-- The removal loop preserves phi-map sortedness, length and
key presence. -/
theorem phiFold_pm_light (argT defT same : Nat) :
    ∀ (uses : List Nat) (acc : PhiState × List Nat),
      KeySorted acc.1.phiMap →
      KeySorted (uses.foldl (phiRewriteStep argT defT same) acc).1.phiMap ∧
      (uses.foldl (phiRewriteStep argT defT same) acc).1.phiMap.length
        = acc.1.phiMap.length ∧
      (∀ d w, afind acc.1.phiMap d = some w →
        ∃ w', afind (uses.foldl (phiRewriteStep argT defT same) acc).1.phiMap d
          = some w') := by
  intro uses
  induction uses with
  | nil => intro acc h; exact ⟨h, rfl, fun d w hw => ⟨w, hw⟩⟩
  | cons u rest ih =>
    intro acc h
    simp only [List.foldl_cons]
    have hstep : KeySorted (phiRewriteStep argT defT same acc u).1.phiMap ∧
        (phiRewriteStep argT defT same acc u).1.phiMap.length
          = acc.1.phiMap.length ∧
        ∀ d w, afind acc.1.phiMap d = some w →
          ∃ w', afind (phiRewriteStep argT defT same acc u).1.phiMap d
            = some w' := by
      cases hcur : afind acc.1.insts u with
      | none =>
        rw [phiRewriteStep_none argT defT same acc u hcur]
        exact ⟨h, rfl, fun d w hw => ⟨w, hw⟩⟩
      | some inst =>
        by_cases hskip : inst.isPhiI = true ∧ inst.pdefs = []
        · rw [phiRewriteStep_skip argT defT same acc u inst hcur hskip]
          exact ⟨h, rfl, fun d w hw => ⟨w, hw⟩⟩
        · rw [phiRewriteStep_rewrite argT defT same acc u inst hcur hskip]
          refine ⟨pmAddUse_sorted _ _ _ _ h, pmAddUse_length _ _ _ _ h, ?_⟩
          intro d w hw
          by_cases hds : d = same
          · subst hds
            obtain ⟨w', hw', _⟩ := (pmAddUse_same acc.1.phiMap d u _).2 w hw
            exact ⟨w', hw'⟩
          · refine ⟨w, ?_⟩
            show afind (pmAddUse acc.1.phiMap same u _) d = some w
            rw [pmAddUse_other _ _ _ _ _ hds]
            exact hw
    obtain ⟨h1, h2, h3⟩ := hstep
    obtain ⟨g1, g2, g3⟩ := ih (phiRewriteStep argT defT same acc u) h1
    refine ⟨g1, by rw [g2, h2], ?_⟩
    intro d w hw
    obtain ⟨w', hw'⟩ := h3 d w hw
    exact g3 d w' hw'

/-- Phis already flagged trivial are never modified by the removal loop. -/
theorem phiFold_flag (argT defT same j : Nat) (ph : PInstr)
    (hphi : ph.isPhiI = true) (hpd : ph.pdefs = []) :
    ∀ (uses : List Nat) (acc : PhiState × List Nat),
      afind acc.1.insts j = some ph →
      afind (uses.foldl (phiRewriteStep argT defT same) acc).1.insts j
        = some ph := by
  intro uses
  induction uses with
  | nil => intro acc h; exact h
  | cons u rest ih =>
    intro acc hj
    apply ih
    cases hcur : afind acc.1.insts u with
    | none =>
      rw [phiRewriteStep_none argT defT same acc u hcur]
      exact hj
    | some inst =>
      by_cases hskip : inst.isPhiI = true ∧ inst.pdefs = []
      · rw [phiRewriteStep_skip argT defT same acc u inst hcur hskip]
        exact hj
      · rw [phiRewriteStep_rewrite argT defT same acc u inst hcur hskip]
        show afind (astore acc.1.insts u _) j = some ph
        by_cases hju : j = u
        · subst hju
          rw [hj] at hcur
          injection hcur with he
          subst he
          exact absurd ⟨hphi, hpd⟩ hskip
        · rw [afind_astore_other _ _ _ _ hju]
          exact hj

/-- The removal loop never introduces operand references to a temp
distinct from the rewrite target. -/
theorem phiFold_notRefD (argT defT same d : Nat) (hsd : same ≠ d) :
    ∀ (uses : List Nat) (acc : PhiState × List Nat),
      (∀ i inst, afind acc.1.insts i = some inst → Remaining inst →
        ∀ op ∈ inst.pops, op.tid ≠ d) →
      ∀ i inst,
        afind (uses.foldl (phiRewriteStep argT defT same) acc).1.insts i
          = some inst →
        Remaining inst → ∀ op ∈ inst.pops, op.tid ≠ d := by
  intro uses
  induction uses with
  | nil => intro acc h; exact h
  | cons u rest ih =>
    intro acc h
    apply ih
    intro i inst hfi hrem op hop
    cases hcur : afind acc.1.insts u with
    | none =>
      rw [phiRewriteStep_none argT defT same acc u hcur] at hfi
      exact h i inst hfi hrem op hop
    | some inst0 =>
      by_cases hskip : inst0.isPhiI = true ∧ inst0.pdefs = []
      · rw [phiRewriteStep_skip argT defT same acc u inst0 hcur hskip] at hfi
        exact h i inst hfi hrem op hop
      · rw [phiRewriteStep_rewrite argT defT same acc u inst0 hcur hskip] at hfi
        replace hfi :
            afind (astore acc.1.insts u (rewriteOps defT same inst0)) i
              = some inst := hfi
        by_cases hiu : i = u
        · subst hiu
          rw [afind_astore_self] at hfi
          injection hfi with he
          subst he
          rcases rewriteOps_mem defT same inst0 op hop with h1 | h1
          · rw [h1]
            exact hsd
          · exact h i inst0 hcur ((rewriteOps_remaining defT same inst0).mp hrem)
              op h1.1
        · rw [afind_astore_other _ _ _ _ hiu] at hfi
          exact h i inst hfi hrem op hop

theorem performRemovalS_phiMap (s2 : PhiState) (t : Nat) (info : PhiInfo) :
    (performRemovalS s2 t info).phiMap = aerase s2.phiMap t := rfl

theorem performRemovalS_sealedList (s2 : PhiState) (t : Nat) (info : PhiInfo) :
    (performRemovalS s2 t info).sealedList = s2.sealedList := rfl

theorem performRemovalS_insts (s2 : PhiState) (t : Nat) (info : PhiInfo)
    (ph2 : PInstr) (h : afind s2.insts info.phiId = some ph2) :
    (performRemovalS s2 t info).insts =
      astore s2.insts info.phiId { ph2 with pdefs := [] } := by
  show (match afind s2.insts info.phiId with
        | none => s2.insts
        | some ph => astore s2.insts info.phiId { ph with pdefs := [] }) =
      astore s2.insts info.phiId { ph2 with pdefs := [] }
  rw [h]

theorem performRemoval_fst (s : PhiState) (t : Nat) (info : PhiInfo)
    (dhead : PhiOp) (same : Nat) :
    (performRemoval s t info dhead same).1 =
      performRemovalS
        (phiRenameFix dhead.tid same
          ((info.uses.foldl (phiRewriteStep t dhead.tid same) (s, [])).1))
        t info := rfl

/-- Basic phi-map facts about a removal: the removed key is gone, the map
stays sorted, strictly shrinks, and absent keys stay absent. -/
theorem performRemoval_pm_spec (s : PhiState) (t : Nat) (info : PhiInfo)
    (dhead : PhiOp) (same : Nat) (hsort : KeySorted s.phiMap)
    (hfind : afind s.phiMap t = some info) :
    afind (performRemoval s t info dhead same).1.phiMap t = none ∧
    KeySorted (performRemoval s t info dhead same).1.phiMap ∧
    (performRemoval s t info dhead same).1.phiMap.length < s.phiMap.length ∧
    (∀ k, afind s.phiMap k = none →
      afind (performRemoval s t info dhead same).1.phiMap k = none) := by
  have hpm : (performRemoval s t info dhead same).1.phiMap =
      aerase ((info.uses.foldl (phiRewriteStep t dhead.tid same)
        (s, [])).1).phiMap t := rfl
  obtain ⟨hsortR, hlenR, hpresR⟩ :=
    phiFold_pm_light t dhead.tid same info.uses (s, []) hsort
  obtain ⟨w, hw⟩ := hpresR t info hfind
  refine ⟨?_, ?_, ?_, ?_⟩
  · rw [hpm]
    exact afind_aerase_self _ _
  · rw [hpm]
    exact aerase_sorted _ _ hsortR
  · rw [hpm]
    calc (aerase ((info.uses.foldl (phiRewriteStep t dhead.tid same)
          (s, [])).1).phiMap t).length
        < ((info.uses.foldl (phiRewriteStep t dhead.tid same)
            (s, [])).1).phiMap.length := aerase_length_lt _ _ _ hw
      _ = s.phiMap.length := hlenR
  · intro k hk
    rw [hpm]
    by_cases hkt : k = t
    · subst hkt
      exact afind_aerase_self _ _
    · rw [afind_aerase_other _ _ _ hkt]
      exact phiFold_pm_none t dhead.tid same k info.uses (s, []) hk

/-- Surviving phi-map entries keep their identity across a removal, with
use sets only growing. -/
theorem performRemoval_pm_keep (s : PhiState) (t : Nat) (info : PhiInfo)
    (dhead : PhiOp) (same : Nat) (hsort : KeySorted s.phiMap)
    (hsame : same ≠ dhead.tid) :
    ∀ k info_k, afind s.phiMap k = some info_k → k ≠ t →
      ∃ info', afind (performRemoval s t info dhead same).1.phiMap k
          = some info' ∧
        info'.phiId = info_k.phiId ∧ info'.blockIdx = info_k.blockIdx ∧
        ∀ x ∈ info_k.uses, x ∈ info'.uses := by
  intro k info_k hk hkt
  have hpm : (performRemoval s t info dhead same).1.phiMap =
      aerase ((info.uses.foldl (phiRewriteStep t dhead.tid same)
        (s, [])).1).phiMap t := rfl
  obtain ⟨_, hPM, _, _, _, _, _, _, _⟩ :=
    phiFold_foldInv t dhead.tid same s hsame info.uses (s, [])
      (foldInv_init s dhead.tid same hsort)
  obtain ⟨info', hfind', hid, hblk, hsup⟩ := hPM k info_k hk
  refine ⟨info', ?_, hid, hblk, hsup⟩
  rw [hpm, afind_aerase_other _ _ _ hkt]
  exact hfind'

/-- Across a removal, the target phi is flagged (definitions cleared,
still a phi) and every other instruction is untouched or rewritten. -/
theorem performRemoval_insts_spec (s : PhiState) (t : Nat) (info : PhiInfo)
    (dhead : PhiOp) (same : Nat) (hsort : KeySorted s.phiMap)
    (hsame : same ≠ dhead.tid) (phi : PInstr)
    (hinst : afind s.insts info.phiId = some phi) :
    (∃ ph, afind (performRemoval s t info dhead same).1.insts info.phiId
        = some ph ∧ ph.isPhiI = phi.isPhiI ∧ ph.pdefs = []) ∧
    (∀ i, i ≠ info.phiId →
      afind (performRemoval s t info dhead same).1.insts i = afind s.insts i ∨
      ∃ inst0, afind s.insts i = some inst0 ∧
        afind (performRemoval s t info dhead same).1.insts i
          = some (rewriteOps dhead.tid same inst0)) := by
  obtain ⟨hJ, _, _, _, _, _, _, _, _⟩ :=
    phiFold_foldInv t dhead.tid same s hsame info.uses (s, [])
      (foldInv_init s dhead.tid same hsort)
  have hph2 : ∃ ph2,
      afind ((info.uses.foldl (phiRewriteStep t dhead.tid same)
        (s, [])).1).insts info.phiId = some ph2 ∧
      ph2.isPhiI = phi.isPhiI := by
    rcases hJ info.phiId with h1 | ⟨inst0, horig, hacc, _⟩
    · exact ⟨phi, by rw [h1]; exact hinst, rfl⟩
    · rw [hinst] at horig
      injection horig with he
      subst he
      exact ⟨_, hacc, rewriteOps_isPhiI _ _ _⟩
  obtain ⟨ph2, hph2f, hph2I⟩ := hph2
  have hfs2 : afind (phiRenameFix dhead.tid same
      ((info.uses.foldl (phiRewriteStep t dhead.tid same)
        (s, [])).1)).insts info.phiId = some ph2 := by
    rw [phiRenameFix_insts]
    exact hph2f
  have hie : (performRemoval s t info dhead same).1.insts =
      astore ((info.uses.foldl (phiRewriteStep t dhead.tid same)
        (s, [])).1).insts info.phiId { ph2 with pdefs := [] } := by
    rw [performRemoval_fst, performRemovalS_insts _ _ _ _ hfs2,
      phiRenameFix_insts]
  constructor
  · refine ⟨{ ph2 with pdefs := [] }, ?_, hph2I, rfl⟩
    rw [hie]
    exact afind_astore_self _ _ _
  · intro i hi
    rw [hie, afind_astore_other _ _ _ _ hi]
    rcases hJ i with h1 | ⟨inst0, horig, hacc, _⟩
    · exact Or.inl h1
    · exact Or.inr ⟨inst0, horig, hacc⟩

/-- After a removal, no remaining instruction references the removed
phi's definition, provided the recorded use set was complete. -/
theorem performRemoval_notRef (s : PhiState) (t : Nat) (info : PhiInfo)
    (dhead : PhiOp) (same : Nat) (hsort : KeySorted s.phiMap)
    (hsame : same ≠ dhead.tid) (hdt : dhead.tid = t) (phi : PInstr)
    (hinst : afind s.insts info.phiId = some phi) (hphiI : phi.isPhiI = true)
    (hcover : ∀ i inst, afind s.insts i = some inst → Remaining inst →
      (∃ op ∈ inst.pops, op.tid = t) → i = info.phiId ∨ i ∈ info.uses) :
    NotRef (performRemoval s t info dhead same).1 t := by
  have hpend := phiFold_pending t dhead.tid same info.phiId hsame info.uses
    (s, []) (by
      intro i inst hfi hrem hex
      refine hcover i inst hfi hrem ?_
      rw [← hdt]
      exact hex)
  obtain ⟨hJ, _, _, _, _, _, _, _, _⟩ :=
    phiFold_foldInv t dhead.tid same s hsame info.uses (s, [])
      (foldInv_init s dhead.tid same hsort)
  have hph2 : ∃ ph2,
      afind ((info.uses.foldl (phiRewriteStep t dhead.tid same)
        (s, [])).1).insts info.phiId = some ph2 ∧
      ph2.isPhiI = true := by
    rcases hJ info.phiId with h1 | ⟨inst0, horig, hacc, _⟩
    · exact ⟨phi, by rw [h1]; exact hinst, hphiI⟩
    · rw [hinst] at horig
      injection horig with he
      subst he
      exact ⟨_, hacc, by rw [rewriteOps_isPhiI]; exact hphiI⟩
  obtain ⟨ph2, hph2f, hph2I⟩ := hph2
  have hie : (performRemoval s t info dhead same).1.insts =
      astore ((info.uses.foldl (phiRewriteStep t dhead.tid same)
        (s, [])).1).insts info.phiId { ph2 with pdefs := [] } := by
    have hfs2 : afind (phiRenameFix dhead.tid same
        ((info.uses.foldl (phiRewriteStep t dhead.tid same)
          (s, [])).1)).insts info.phiId = some ph2 := by
      rw [phiRenameFix_insts]
      exact hph2f
    rw [performRemoval_fst, performRemovalS_insts _ _ _ _ hfs2,
      phiRenameFix_insts]
  intro i inst hfi hrem op hop htid
  rw [hie] at hfi
  by_cases hi : i = info.phiId
  · subst hi
    rw [afind_astore_self] at hfi
    injection hfi with he
    subst he
    rcases hrem with hr | hr
    · rw [show ({ ph2 with pdefs := [] } : PInstr).isPhiI = ph2.isPhiI
        from rfl, hph2I] at hr
      cases hr
    · exact hr rfl
  · rw [afind_astore_other _ _ _ _ hi] at hfi
    exact hi (hpend i inst hfi hrem ⟨op, hop, by rw [htid, hdt]⟩)

theorem performRemovalS_notRefD (s2 : PhiState) (t : Nat) (info : PhiInfo)
    (d : Nat)
    (h : ∀ i inst, afind s2.insts i = some inst → Remaining inst →
      ∀ op ∈ inst.pops, op.tid ≠ d) :
    ∀ i inst, afind (performRemovalS s2 t info).insts i = some inst →
      Remaining inst → ∀ op ∈ inst.pops, op.tid ≠ d := by
  intro i inst hfi hrem op hop
  have hins : (performRemovalS s2 t info).insts =
      match afind s2.insts info.phiId with
      | none => s2.insts
      | some ph2 => astore s2.insts info.phiId { ph2 with pdefs := [] } := rfl
  rw [hins] at hfi
  cases hph : afind s2.insts info.phiId with
  | none =>
    rw [hph] at hfi
    exact h i inst hfi hrem op hop
  | some ph2 =>
    rw [hph] at hfi
    by_cases hi : i = info.phiId
    · subst hi
      rw [afind_astore_self] at hfi
      injection hfi with he
      subst he
      rcases hrem with hr | hr
      · exact h _ ph2 hph (Or.inl hr) op hop
      · exact absurd rfl hr
    · rw [afind_astore_other _ _ _ _ hi] at hfi
      exact h i inst hfi hrem op hop

theorem performRemovalS_pm_none (s2 : PhiState) (t : Nat) (info : PhiInfo)
    (d : Nat) (hd : afind s2.phiMap d = none) :
    afind (performRemovalS s2 t info).phiMap d = none := by
  rw [performRemovalS_phiMap]
  by_cases hdt : d = t
  · subst hdt
    exact afind_aerase_self _ _
  · rw [afind_aerase_other _ _ _ hdt]
    exact hd

theorem performRemovalS_flag (s2 : PhiState) (t : Nat) (info : PhiInfo)
    (j : Nat) (ph : PInstr) (hj : afind s2.insts j = some ph)
    (hphiI : ph.isPhiI = true) (hpd : ph.pdefs = []) :
    ∃ ph', afind (performRemovalS s2 t info).insts j = some ph' ∧
      ph'.isPhiI = true ∧ ph'.pdefs = [] := by
  have hins : (performRemovalS s2 t info).insts =
      match afind s2.insts info.phiId with
      | none => s2.insts
      | some ph2 => astore s2.insts info.phiId { ph2 with pdefs := [] } := rfl
  rw [hins]
  cases hph : afind s2.insts info.phiId with
  | none => exact ⟨ph, hj, hphiI, hpd⟩
  | some ph2 =>
    by_cases hji : j = info.phiId
    · subst hji
      rw [hj] at hph
      injection hph with he
      subst he
      exact ⟨{ ph with pdefs := [] }, afind_astore_self _ _ _, hphiI, rfl⟩
    · refine ⟨ph, ?_, hphiI, hpd⟩
      rw [afind_astore_other _ _ _ _ hji]
      exact hj

/-- A successful check-and-remove step never re-introduces operand
references to an already-unreferenced nonzero temp. -/
theorem tryRemoveCheck_notRef_mono (st : PhiState) (u : Nat) (st1 : PhiState)
    (users : List Nat) (d : Nat)
    (h : tryRemoveCheck st u = some (st1, users)) (hd0 : d ≠ 0)
    (hNR : NotRef st d) : NotRef st1 d := by
  obtain ⟨info, phi, dhead, rest0, same, hfind, hsl, hinst, hdefs, hscan, heq⟩ :=
    tryRemoveCheck_unpack st u st1 users h
  have hsd : same ≠ d := by
    rcases trivialScan_source dhead.tid dhead.physRegB phi.pops 0 same hscan
      with h1 | ⟨op, hop, htid, _⟩
    · rw [h1]
      exact fun hc => hd0 hc.symm
    · have hrem : Remaining phi := Or.inr (by rw [hdefs]; exact List.cons_ne_nil _ _)
      rw [← htid]
      exact hNR info.phiId phi hinst hrem op hop
  have hfold := phiFold_notRefD u dhead.tid same d hsd info.uses (st, []) hNR
  have hs1 : st1 = (performRemoval st u info dhead same).1 := by
    rw [heq]
  rw [hs1, performRemoval_fst]
  apply performRemovalS_notRefD
  intro i inst hfi hrem op hop
  rw [phiRenameFix_insts] at hfi
  exact hfold i inst hfi hrem op hop

/-- A successful check-and-remove step never creates phi-map keys. -/
theorem tryRemoveCheck_absent_mono (st : PhiState) (u : Nat) (st1 : PhiState)
    (users : List Nat) (d : Nat)
    (h : tryRemoveCheck st u = some (st1, users))
    (hd : afind st.phiMap d = none) : afind st1.phiMap d = none := by
  obtain ⟨info, phi, dhead, rest0, same, hfind, hsl, hinst, hdefs, hscan, heq⟩ :=
    tryRemoveCheck_unpack st u st1 users h
  have hs1 : st1 = (performRemoval st u info dhead same).1 := by
    rw [heq]
  rw [hs1, performRemoval_fst]
  apply performRemovalS_pm_none
  rw [phiRenameFix_phiMap]
  exact phiFold_pm_none u dhead.tid same d info.uses (st, []) hd

/-- A successful check-and-remove step keeps flagged-trivial phis
flagged. -/
theorem tryRemoveCheck_flag_mono (st : PhiState) (u : Nat) (st1 : PhiState)
    (users : List Nat) (j : Nat)
    (h : tryRemoveCheck st u = some (st1, users))
    (hf : ∃ ph, afind st.insts j = some ph ∧ ph.isPhiI = true ∧
      ph.pdefs = []) :
    ∃ ph, afind st1.insts j = some ph ∧ ph.isPhiI = true ∧ ph.pdefs = [] := by
  obtain ⟨info, phi, dhead, rest0, same, hfind, hsl, hinst, hdefs, hscan, heq⟩ :=
    tryRemoveCheck_unpack st u st1 users h
  obtain ⟨ph, hj, hphiI, hpd⟩ := hf
  have hs1 : st1 = (performRemoval st u info dhead same).1 := by
    rw [heq]
  rw [hs1, performRemoval_fst]
  apply performRemovalS_flag _ _ _ _ ph _ hphiI hpd
  rw [phiRenameFix_insts]
  exact phiFold_flag u dhead.tid same j ph hphiI hpd info.uses (st, []) hj

/-- Facts derivable from well-formedness at a successful check: the key
is nonzero, the instruction is a phi, its definition carries the key, and
the scanned common value differs from the key. -/
theorem tryRemoveCheck_derived (s : PhiState) (t : Nat) (hWF : PhiWF s)
    (info : PhiInfo) (phi : PInstr) (dhead : PhiOp) (rest0 : List PhiOp)
    (same : Nat)
    (hfind : afind s.phiMap t = some info)
    (hinst : afind s.insts info.phiId = some phi)
    (hdefs : phi.pdefs = dhead :: rest0)
    (hscan : trivialScan dhead.tid dhead.physRegB phi.pops 0 = some same) :
    t ≠ 0 ∧ phi.isPhiI = true ∧ dhead.tid = t ∧ same ≠ t := by
  obtain ⟨ht0, ⟨inst_d, d, rest_d, hid, hidPhi, hidDefs, hdt⟩, _⟩ :=
    hWF t info hfind
  rw [hinst] at hid
  injection hid with he
  subst he
  rw [hdefs] at hidDefs
  injection hidDefs with he1 he2
  subst he1
  refine ⟨ht0, hidPhi, hdt, ?_⟩
  rcases trivialScan_source dhead.tid dhead.physRegB phi.pops 0 same hscan
    with h1 | ⟨op, hop, htid, hne⟩
  · rw [h1]
    exact fun hc => ht0 hc.symm
  · intro hc
    exact hne (by rw [htid, hc, hdt])

/-- Per-step facts of a successful check-and-remove, relative to the
state it started from. -/
theorem tryRemoveCheck_spec (s : PhiState) (t : Nat) (s1 : PhiState)
    (users : List Nat) (hsort : KeySorted s.phiMap) (hWF : PhiWF s)
    (h : tryRemoveCheck s t = some (s1, users)) :
    afind s1.phiMap t = none ∧
    KeySorted s1.phiMap ∧
    s1.phiMap.length < s.phiMap.length ∧
    NotRef s1 t ∧
    (∀ k, afind s.phiMap k = none → afind s1.phiMap k = none) ∧
    (∀ k info_k, afind s.phiMap k = some info_k → k ≠ t →
      ∃ info', afind s1.phiMap k = some info' ∧
        info'.phiId = info_k.phiId ∧ info'.blockIdx = info_k.blockIdx ∧
        ∀ x ∈ info_k.uses, x ∈ info'.uses) ∧
    (∃ info, afind s.phiMap t = some info ∧
      ∃ ph, afind s1.insts info.phiId = some ph ∧ ph.isPhiI = true ∧
        ph.pdefs = []) := by
  obtain ⟨info, phi, dhead, rest0, same, hfind, hsl, hinst, hdefs, hscan, heq⟩ :=
    tryRemoveCheck_unpack s t s1 users h
  obtain ⟨ht0, hphiI, hdt, hst⟩ :=
    tryRemoveCheck_derived s t hWF info phi dhead rest0 same hfind hinst
      hdefs hscan
  have hsame : same ≠ dhead.tid := by
    rw [hdt]
    exact hst
  have hs1 : s1 = (performRemoval s t info dhead same).1 := by
    rw [heq]
  obtain ⟨hA, hB, hC, hD⟩ :=
    performRemoval_pm_spec s t info dhead same hsort hfind
  obtain ⟨hflag, _⟩ :=
    performRemoval_insts_spec s t info dhead same hsort hsame phi hinst
  have hcover := (hWF t info hfind).2.2
  have hNR := performRemoval_notRef s t info dhead same hsort hsame hdt phi
    hinst hphiI hcover
  subst hs1
  obtain ⟨ph, hph1, hph2, hph3⟩ := hflag
  exact ⟨hA, hB, hC, hNR, hD,
    performRemoval_pm_keep s t info dhead same hsort hsame,
    info, hfind, ph, hph1, hph2.trans hphiI, hph3⟩

/-- A successful check-and-remove step preserves well-formedness of the
phi map. -/
theorem tryRemoveCheck_WF (s : PhiState) (t : Nat) (s1 : PhiState)
    (users : List Nat) (hsort : KeySorted s.phiMap) (hWF : PhiWF s)
    (h : tryRemoveCheck s t = some (s1, users)) : PhiWF s1 := by
  obtain ⟨info, phi, dhead, rest0, same, hfind, hsl, hinst, hdefs, hscan, heq⟩ :=
    tryRemoveCheck_unpack s t s1 users h
  obtain ⟨ht0, hphiI, hdt, hst⟩ :=
    tryRemoveCheck_derived s t hWF info phi dhead rest0 same hfind hinst
      hdefs hscan
  have hsame : same ≠ dhead.tid := by
    rw [hdt]
    exact hst
  have hs1 : s1 = (performRemoval s t info dhead same).1 := by
    rw [heq]
  obtain ⟨hJ, hPM, hPMn, hlen, hsortR, _, _, _, _⟩ :=
    phiFold_foldInv t dhead.tid same s hsame info.uses (s, [])
      (foldInv_init s dhead.tid same hsort)
  have hpm1 : s1.phiMap =
      aerase ((info.uses.foldl (phiRewriteStep t dhead.tid same)
        (s, [])).1).phiMap t := by
    rw [hs1]
    rfl
  have hph2e : ∃ ph2,
      afind ((info.uses.foldl (phiRewriteStep t dhead.tid same)
        (s, [])).1).insts info.phiId = some ph2 ∧ ph2.isPhiI = true := by
    rcases hJ info.phiId with h1 | ⟨inst0, horig, hacc, _⟩
    · refine ⟨phi, ?_, hphiI⟩
      rw [h1]
      exact hinst
    · rw [hinst] at horig
      injection horig with he
      subst he
      refine ⟨_, hacc, ?_⟩
      rw [rewriteOps_isPhiI]
      exact hphiI
  obtain ⟨ph2, hph2f, hph2I⟩ := hph2e
  have hie : s1.insts =
      astore ((info.uses.foldl (phiRewriteStep t dhead.tid same)
        (s, [])).1).insts info.phiId { ph2 with pdefs := [] } := by
    have hfs2 : afind (phiRenameFix dhead.tid same
        ((info.uses.foldl (phiRewriteStep t dhead.tid same)
          (s, [])).1)).insts info.phiId = some ph2 := by
      rw [phiRenameFix_insts]
      exact hph2f
    rw [hs1, performRemoval_fst, performRemovalS_insts _ _ _ _ hfs2,
      phiRenameFix_insts]
  intro k' info' hk'
  have hk't : k' ≠ t := by
    intro hc
    subst hc
    rw [hpm1, afind_aerase_self] at hk'
    cases hk'
  rw [hpm1, afind_aerase_other _ _ _ hk't] at hk'
  cases hkS : afind s.phiMap k' with
  | none =>
    rw [phiFold_pm_none t dhead.tid same k' info.uses (s, []) hkS] at hk'
    cases hk'
  | some info_k =>
  obtain ⟨info'', hfind'', hid'', hblk'', hsup''⟩ := hPM k' info_k hkS
  rw [hk'] at hfind''
  injection hfind'' with hee
  subst hee
  obtain ⟨hk0, ⟨inst_k, d_k, rest_k, hik, hikPhi, hikDefs, hdk⟩, hcov_k⟩ :=
    hWF k' info_k hkS
  have hne_id : info_k.phiId ≠ info.phiId := by
    intro hc
    rw [hc, hinst] at hik
    injection hik with he2
    subst he2
    rw [hdefs] at hikDefs
    injection hikDefs with hd1 hd2
    rw [← hd1, hdt] at hdk
    exact hk't hdk.symm
  refine ⟨hk0, ?_, ?_⟩
  · rcases hJ info_k.phiId with h1 | ⟨inst0, horig, hacc, _⟩
    · refine ⟨inst_k, d_k, rest_k, ?_, hikPhi, hikDefs, hdk⟩
      rw [hie, hid'', afind_astore_other _ _ _ _ hne_id, h1]
      exact hik
    · rw [hik] at horig
      injection horig with he3
      subst he3
      refine ⟨rewriteOps dhead.tid same inst_k, d_k, rest_k, ?_, ?_, ?_, hdk⟩
      · rw [hie, hid'', afind_astore_other _ _ _ _ hne_id]
        exact hacc
      · rw [rewriteOps_isPhiI]
        exact hikPhi
      · rw [rewriteOps_pdefs]
        exact hikDefs
  · intro i inst1 hfi hrem href
    by_cases hi : i = info.phiId
    · subst hi
      rw [hie, afind_astore_self] at hfi
      injection hfi with he4
      subst he4
      exfalso
      rcases hrem with hr | hr
      · rw [show ({ ph2 with pdefs := [] } : PInstr).isPhiI = ph2.isPhiI
          from rfl, hph2I] at hr
        cases hr
      · exact hr rfl
    · rw [hie, afind_astore_other _ _ _ _ hi] at hfi
      rcases hJ i with h1 | ⟨inst0, horig, hacc, hcond⟩
      · rw [h1] at hfi
        rcases hcov_k i inst1 hfi hrem href with h2 | h2
        · exact Or.inl (by rw [hid'']; exact h2)
        · exact Or.inr (hsup'' i h2)
      · rw [hacc] at hfi
        injection hfi with he5
        obtain ⟨op, hop, htid⟩ := href
        rw [← he5] at hop hrem
        rcases rewriteOps_mem_strong dhead.tid same inst0 op hop with
          ⟨hop0, _⟩ | ⟨hts, op0, hop0, hd0⟩
        · have hrem0 : Remaining inst0 := (rewriteOps_remaining _ _ _).mp hrem
          rcases hcov_k i inst0 horig hrem0 ⟨op, hop0, htid⟩ with h2 | h2
          · exact Or.inl (by rw [hid'']; exact h2)
          · exact Or.inr (hsup'' i h2)
        · have hks : k' = same := by
            rw [← htid, hts]
          rw [hks] at hk'
          exact Or.inr (hcond ⟨op0, hop0, hd0⟩ info' hk')

/-- Any property preserved by successful check-and-remove steps is
preserved by the whole recursion. -/
theorem tryRemoveRec_inv (Inv : PhiState → Prop)
    (hstep : ∀ st u st1 users, tryRemoveCheck st u = some (st1, users) →
      Inv st → Inv st1) :
    ∀ fuel,
      (∀ st u st', try_remove_trivial_phi fuel st u = some st' →
        Inv st → Inv st') ∧
      (∀ us st st', tryRemoveFold fuel st us = some st' →
        Inv st → Inv st') := by
  intro fuel
  induction fuel with
  | zero =>
    constructor
    · intro st u st' h
      rw [tryRemove_zero] at h
      cases h
    · intro us
      induction us with
      | nil =>
        intro st st' h hI
        rw [tryRemoveFold_nil] at h
        injection h with he
        subst he
        exact hI
      | cons u rest ihus =>
        intro st st' h _
        rw [tryRemoveFold_cons, tryRemove_zero] at h
        cases h
  | succ fuel ih =>
    have hP : ∀ st u st', try_remove_trivial_phi (fuel + 1) st u = some st' →
        Inv st → Inv st' := by
      intro st u st' h hI
      rw [tryRemove_succ] at h
      cases hck : tryRemoveCheck st u with
      | none =>
        rw [hck] at h
        injection h with he
        subst he
        exact hI
      | some p =>
        obtain ⟨s1, users⟩ := p
        rw [hck] at h
        exact ih.2 users s1 st' h (hstep st u s1 users hck hI)
    refine ⟨hP, ?_⟩
    intro us
    induction us with
    | nil =>
      intro st st' h hI
      rw [tryRemoveFold_nil] at h
      injection h with he
      subst he
      exact hI
    | cons u rest ihus =>
      intro st st' h hI
      rw [tryRemoveFold_cons] at h
      cases htr : try_remove_trivial_phi (fuel + 1) st u with
      | none =>
        rw [htr] at h
        cases h
      | some smid =>
        rw [htr] at h
        exact ihus smid st' h (hP st u smid htr hI)

/-- Sortedness and strict phi-map shrink of the check step (no
well-formedness needed). -/
theorem tryRemoveCheck_len (s : PhiState) (t : Nat) (s1 : PhiState)
    (users : List Nat) (hsort : KeySorted s.phiMap)
    (h : tryRemoveCheck s t = some (s1, users)) :
    KeySorted s1.phiMap ∧ s1.phiMap.length < s.phiMap.length := by
  obtain ⟨info, phi, dhead, rest0, same, hfind, hsl, hinst, hdefs, hscan, heq⟩ :=
    tryRemoveCheck_unpack s t s1 users h
  have hs1 : s1 = (performRemoval s t info dhead same).1 := by
    rw [heq]
  obtain ⟨_, hB, hC, _⟩ := performRemoval_pm_spec s t info dhead same hsort hfind
  subst hs1
  exact ⟨hB, hC⟩

/-- With fuel exceeding the phi-map size, the recursion always returns a
state (and never grows the phi map): each removal strictly shrinks the
finite phi map, bounding the recursion depth. -/
theorem tryRemove_total : ∀ fuel,
    (∀ s t, KeySorted s.phiMap → s.phiMap.length < fuel →
      ∃ s', try_remove_trivial_phi fuel s t = some s' ∧
        KeySorted s'.phiMap ∧ s'.phiMap.length ≤ s.phiMap.length) ∧
    (∀ us s, KeySorted s.phiMap → s.phiMap.length < fuel →
      ∃ s', tryRemoveFold fuel s us = some s' ∧
        KeySorted s'.phiMap ∧ s'.phiMap.length ≤ s.phiMap.length) := by
  intro fuel
  induction fuel with
  | zero =>
    constructor
    · intro s t _ hlen
      exact absurd hlen (Nat.not_lt_zero _)
    · intro us s _ hlen
      exact absurd hlen (Nat.not_lt_zero _)
  | succ fuel ih =>
    have hP : ∀ s t, KeySorted s.phiMap → s.phiMap.length < fuel + 1 →
        ∃ s', try_remove_trivial_phi (fuel + 1) s t = some s' ∧
          KeySorted s'.phiMap ∧ s'.phiMap.length ≤ s.phiMap.length := by
      intro s t hsort hlen
      cases hck : tryRemoveCheck s t with
      | none =>
        refine ⟨s, ?_, hsort, Nat.le_refl _⟩
        rw [tryRemove_succ, hck]
      | some p =>
        obtain ⟨s1, users⟩ := p
        obtain ⟨hsort1, hlen1⟩ := tryRemoveCheck_len s t s1 users hsort hck
        obtain ⟨s', hfold, hsort', hlen'⟩ := ih.2 users s1 hsort1 (by omega)
        refine ⟨s', ?_, hsort', by omega⟩
        rw [tryRemove_succ, hck]
        exact hfold
    refine ⟨hP, ?_⟩
    intro us
    induction us with
    | nil =>
      intro s hsort _
      refine ⟨s, ?_, hsort, Nat.le_refl _⟩
      rw [tryRemoveFold_nil]
    | cons u rest ihus =>
      intro s hsort hlen
      obtain ⟨smid, htr, hsortm, hlenm⟩ := hP s u hsort hlen
      obtain ⟨s', hfold, hsort', hlen'⟩ := ihus smid hsortm (by omega)
      refine ⟨s', ?_, hsort', by omega⟩
      rw [tryRemoveFold_cons, htr]
      exact hfold

/-- Executable check of `PhiWF` over the finite map entries. -/
def phiWFb (s : PhiState) : Bool :=
  s.phiMap.all fun e =>
    decide (e.1 ≠ 0) &&
    ((afind s.insts e.2.phiId).elim false fun inst =>
      inst.isPhiI &&
      (inst.pdefs.head?.elim false fun d => decide (d.tid = e.1)) &&
      (s.insts.all fun ei =>
        !(decide (Remaining ei.2) &&
          (ei.2.pops.any fun op => decide (op.tid = e.1))) ||
        (decide (ei.1 = e.2.phiId) || decide (ei.1 ∈ e.2.uses))))

theorem phiWFb_sound (s : PhiState) (h : phiWFb s = true) : PhiWF s := by
  intro k info hk
  have hmem := afind_mem s.phiMap k info hk
  have he : (decide (k ≠ 0) &&
      ((afind s.insts info.phiId).elim false fun inst =>
        inst.isPhiI &&
        (inst.pdefs.head?.elim false fun d => decide (d.tid = k)) &&
        (s.insts.all fun ei =>
          !(decide (Remaining ei.2) &&
            (ei.2.pops.any fun op => decide (op.tid = k))) ||
          (decide (ei.1 = info.phiId) || decide (ei.1 ∈ info.uses))))) = true :=
    List.all_eq_true.mp h (k, info) hmem
  rw [Bool.and_eq_true] at he
  obtain ⟨hk0b, he2⟩ := he
  refine ⟨of_decide_eq_true hk0b, ?_⟩
  cases hinst : afind s.insts info.phiId with
  | none =>
    rw [hinst] at he2
    exact Bool.noConfusion he2
  | some inst =>
    rw [hinst] at he2
    have he3 : (inst.isPhiI &&
        (inst.pdefs.head?.elim false fun d => decide (d.tid = k)) &&
        (s.insts.all fun ei =>
          !(decide (Remaining ei.2) &&
            (ei.2.pops.any fun op => decide (op.tid = k))) ||
          (decide (ei.1 = info.phiId) || decide (ei.1 ∈ info.uses)))) = true :=
      he2
    rw [Bool.and_eq_true, Bool.and_eq_true] at he3
    obtain ⟨⟨hph, hd⟩, hcov⟩ := he3
    cases hdefs : inst.pdefs with
    | nil =>
      rw [hdefs] at hd
      exact Bool.noConfusion hd
    | cons d rest =>
      rw [hdefs] at hd
      have hd2 : d.tid = k := by
        have hdt : decide (d.tid = k) = true := hd
        exact of_decide_eq_true hdt
      refine ⟨⟨inst, d, rest, rfl, hph, hdefs, hd2⟩, ?_⟩
      intro i inst2 hfi hrem href
      have hmem2 := afind_mem s.insts i inst2 hfi
      have hc : (!(decide (Remaining inst2) &&
          (inst2.pops.any fun op => decide (op.tid = k))) ||
          (decide (i = info.phiId) || decide (i ∈ info.uses))) = true :=
        List.all_eq_true.mp hcov (i, inst2) hmem2
      have hguard : (decide (Remaining inst2) &&
          (inst2.pops.any fun op => decide (op.tid = k))) = true := by
        rw [Bool.and_eq_true]
        obtain ⟨op, hop, htid⟩ := href
        exact ⟨decide_eq_true hrem,
          List.any_eq_true.mpr ⟨op, hop, decide_eq_true htid⟩⟩
      rw [hguard, Bool.not_true, Bool.false_or, Bool.or_eq_true] at hc
      rcases hc with hc | hc
      · exact Or.inl (of_decide_eq_true hc)
      · exact Or.inr (of_decide_eq_true hc)

/-- Phi instruction of the C3 counterexample: definition temp 5 at byte
register 0, single operand temp 7 at byte register 4. -/
def c3xPhi : PInstr := ⟨true, [⟨5, 0⟩], [⟨7, 4⟩]⟩

/-- C3 counterexample state: a sealed block containing the phi above and
one consumer of its result. -/
def c3xState : PhiState :=
  { insts := [(1, c3xPhi), (2, ⟨false, [], [⟨5, 8⟩]⟩)]
    phiMap := [(5, ⟨1, 1, [2]⟩)]
    sealedList := [1]
    renames := []
    orig_names := []
    nblocks := 2 }

/-- **C3** (counterexample): a phi in a sealed block all of whose
operands are the identical value (temp 7, distinct from the phi) is NOT
removed by `try_remove_trivial_phi`, contrary to the claim, because the
operand's fixed register (byte 4) differs from the phi definition's
register (byte 0): the call returns with the state unchanged — the phi
keeps its definitions and stays in the phi map. -/
theorem c3_counterexample :
    (∀ op ∈ c3xPhi.pops, op.tid = 7) ∧
    c3xState.sealedList.contains 1 = true ∧
    afind c3xState.phiMap 5 = some ⟨1, 1, [2]⟩ ∧
    afind c3xState.insts 1 = some c3xPhi ∧
    c3xPhi.pdefs ≠ [] ∧
    try_remove_trivial_phi 2 c3xState 5 = some c3xState := by
  refine ⟨by decide, by decide, by decide, by decide, by decide, ?_⟩
  show try_remove_trivial_phi (1 + 1) c3xState 5 = some c3xState
  rw [tryRemove_succ]
  rfl

/-- **C3** (amended): when the triviality scan does succeed — every
operand resolves to the running common value or the phi's own
definition, and the first-adopted operand's register matches the
definition's — the phi is removed: its phi-map entry is erased, its
definition list is cleared (flagging it for deletion), and no remaining
instruction references the phi's definition in an operand (all its
consumers having been redirected to the common value). -/
theorem c3_trivial_phi_removed (s : PhiState) (t fuel : Nat) (info : PhiInfo)
    (hsort : KeySorted s.phiMap) (hWF : PhiWF s)
    (hfind : afind s.phiMap t = some info)
    (hfuel : s.phiMap.length < fuel)
    (hck : (tryRemoveCheck s t).isSome = true) :
    ∃ s', try_remove_trivial_phi fuel s t = some s' ∧
      afind s'.phiMap t = none ∧
      (∃ ph, afind s'.insts info.phiId = some ph ∧ ph.isPhiI = true ∧
        ph.pdefs = []) ∧
      NotRef s' t := by
  have ht0 : t ≠ 0 := (hWF t info hfind).1
  cases hckv : tryRemoveCheck s t with
  | none =>
    rw [hckv] at hck
    cases hck
  | some p =>
  obtain ⟨s1, users⟩ := p
  obtain ⟨hnone1, hsort1, hlen1, hNR1, _, _, info0, hfind0, hflag1⟩ :=
    tryRemoveCheck_spec s t s1 users hsort hWF hckv
  rw [hfind] at hfind0
  injection hfind0 with he0
  subst he0
  cases fuel with
  | zero => exact absurd hfuel (Nat.not_lt_zero _)
  | succ n =>
  have hlen_s : 1 ≤ s.phiMap.length :=
    List.length_pos.mpr (List.ne_nil_of_mem (afind_mem s.phiMap t info hfind))
  obtain ⟨s', hfold, hsort', hlen'⟩ :=
    (tryRemove_total n).2 users s1 hsort1 (by omega)
  have hInv := (tryRemoveRec_inv
    (fun st => afind st.phiMap t = none ∧
      (∃ ph, afind st.insts info.phiId = some ph ∧ ph.isPhiI = true ∧
        ph.pdefs = []) ∧
      NotRef st t)
    (by
      intro st u st1' users' hck' hI
      exact ⟨tryRemoveCheck_absent_mono st u st1' users' t hck' hI.1,
        tryRemoveCheck_flag_mono st u st1' users' info.phiId hck' hI.2.1,
        tryRemoveCheck_notRef_mono st u st1' users' t hck' ht0 hI.2.2⟩)
    n).2 users s1 s' hfold ⟨hnone1, hflag1, hNR1⟩
  refine ⟨s', ?_, hInv.1, hInv.2.1, hInv.2.2⟩
  rw [tryRemove_succ, hckv]
  exact hfold

/-- C3 witness state: same shape as the counterexample but with the
operand's register matching the definition's, so the scan succeeds. -/
def c3wState : PhiState :=
  { insts := [(1, ⟨true, [⟨5, 0⟩], [⟨7, 0⟩]⟩), (2, ⟨false, [], [⟨5, 8⟩]⟩)]
    phiMap := [(5, ⟨1, 1, [2]⟩)]
    sealedList := [1]
    renames := []
    orig_names := []
    nblocks := 2 }

theorem c3_trivial_phi_removed_witness :
    ∃ s', try_remove_trivial_phi 2 c3wState 5 = some s' ∧
      afind s'.phiMap 5 = none ∧
      (∃ ph, afind s'.insts 1 = some ph ∧ ph.isPhiI = true ∧
        ph.pdefs = []) ∧
      NotRef s' 5 :=
  c3_trivial_phi_removed c3wState 5 2 ⟨1, 1, [2]⟩ (by decide)
    (phiWFb_sound c3wState (by decide)) (by decide) (by decide) (by decide)

/-- **C9**: the recursive trivial-phi removal always terminates — fuel
exceeding the phi-map size is never exhausted, because each removal
strictly shrinks the finite phi map before recursing — and every phi the
call removes leaves no operand reference to its definition in any
remaining instruction of the final state. -/
theorem c9_trivial_phi_termination (s : PhiState) (t : Nat)
    (hsort : KeySorted s.phiMap) (hWF : PhiWF s) :
    (∃ s', try_remove_trivial_phi (s.phiMap.length + 1) s t = some s') ∧
    (∀ s' d info_d,
      try_remove_trivial_phi (s.phiMap.length + 1) s t = some s' →
      afind s.phiMap d = some info_d → afind s'.phiMap d = none →
      NotRef s' d) := by
  constructor
  · obtain ⟨s', h, _, _⟩ := (tryRemove_total (s.phiMap.length + 1)).1 s t
      hsort (Nat.lt_succ_self _)
    exact ⟨s', h⟩
  · intro s' d info_d htr hfd hnone
    have hd0 : d ≠ 0 := (hWF d info_d hfd).1
    have hstep : ∀ st u st1 users,
        tryRemoveCheck st u = some (st1, users) →
        (PhiWF st ∧ KeySorted st.phiMap ∧
          ∀ e, e ≠ 0 → afind st.phiMap e = none →
            afind s.phiMap e = none ∨ NotRef st e) →
        PhiWF st1 ∧ KeySorted st1.phiMap ∧
          ∀ e, e ≠ 0 → afind st1.phiMap e = none →
            afind s.phiMap e = none ∨ NotRef st1 e := by
      intro st u st1 users hck ⟨hWFst, hsortst, hrem⟩
      obtain ⟨htnone, hsort1, _, hNRu, _, hkeep, _⟩ :=
        tryRemoveCheck_spec st u st1 users hsortst hWFst hck
      refine ⟨tryRemoveCheck_WF st u st1 users hsortst hWFst hck, hsort1, ?_⟩
      intro e he0 hnone1
      by_cases heu : e = u
      · subst heu
        exact Or.inr hNRu
      · cases hse : afind st.phiMap e with
        | some info_e =>
          obtain ⟨info', hfind', _, _, _⟩ := hkeep e info_e hse heu
          rw [hfind'] at hnone1
          cases hnone1
        | none =>
          rcases hrem e he0 hse with h1 | h1
          · exact Or.inl h1
          · exact Or.inr
              (tryRemoveCheck_notRef_mono st u st1 users e hck he0 h1)
    have hInv := (tryRemoveRec_inv _ hstep (s.phiMap.length + 1)).1 s t s'
      htr ⟨hWF, hsort, fun e _ he => Or.inl he⟩
    rcases hInv.2.2 d hd0 hnone with h1 | h1
    · rw [hfd] at h1
      cases h1
    · exact h1

/-- C9 witness state: a removable trivial phi (temp 5) with one
consumer. -/
def c9wState : PhiState :=
  { insts := [(3, ⟨true, [⟨5, 0⟩], [⟨9, 0⟩]⟩), (4, ⟨false, [], [⟨5, 12⟩]⟩)]
    phiMap := [(5, ⟨3, 1, [4]⟩)]
    sealedList := [1]
    renames := []
    orig_names := []
    nblocks := 2 }

theorem c9_trivial_phi_termination_witness :
    (∃ s', try_remove_trivial_phi (c9wState.phiMap.length + 1) c9wState 5
      = some s') ∧
    (∀ s' d info_d,
      try_remove_trivial_phi (c9wState.phiMap.length + 1) c9wState 5
        = some s' →
      afind c9wState.phiMap d = some info_d → afind s'.phiMap d = none →
      NotRef s' d) :=
  c9_trivial_phi_termination c9wState 5 (by decide)
    (phiWFb_sound c9wState (by decide))

/-
## Live-range-split searches: get_regs_for_copies and get_reg_impl

Model of the copy-placement machinery (C4, C5). Byte addresses are used
for `PhysReg` values carried by operands and assignments (unit = byte
address / 4); window positions and `PhysRegInterval` are in units, as in
the rest of this file.
-/

/-- Slice of C++ `struct assignment`: assigned register (byte address)
and register class. -/
structure Assignment where
  regB : Nat
  rc : RegClass
deriving DecidableEq, Repr

/-- Operand slice used by the copy-placement code. A `tid` of 0 stands
for a non-temp operand (`isTemp()` false). -/
structure GOperand where
  tid : Nat
  physRegB : Nat
  bytes : Nat
  rt : RegType
  killBeforeDef : Bool
  firstKillBeforeDef : Bool
deriving DecidableEq, Repr

/-- Instruction slice used by the copy-placement code. -/
structure GInstr where
  isPhiI : Bool
  isCreateVector : Bool
  ops : List GOperand
deriving DecidableEq, Repr

/-- C++ `get_stride(rc)` (stride for non-subdword classes). -/
def get_stride (rc : RegClass) : Nat :=
  if rc.rt = RegType.vgpr then 1
  else if rc.size = 2 then 2
  else if 4 ≤ rc.size then 4
  else 1

/-- `align(x, 4)`. -/
def align4 (x : Nat) : Nat := ((x + 3) / 4) * 4

/-- The units of a candidate window (iteration over `reg_win`). -/
def winUnits (lo size : Nat) : List Nat := List.range' lo size

/-- Inner loop of the sliding-window search of `get_regs_for_copies`
(the candidate-window scan): walk the window's units accumulating the
move cost `k` and variable count `n`; reject (return `none`) on blocked
units, move budget exhaustion, linear-VGPR live ranges, and values at
least as large as the request unless they are kill-before-def operands
of the instruction. -/
def grfcScanUnits (rf : RegisterFile) (asg : Nat → Assignment) (instr : GInstr)
    (size num_moves num_vars : Nat) :
    List Nat → Nat → Nat → Nat → Option (Nat × Nat)
  | [], k, n, _ => some (k, n)
  | j :: rest, k, n, last_var =>
    if rf.regs j = 0 ∨ rf.regs j = last_var then
      grfcScanUnits rf asg instr size num_moves num_vars rest k n last_var
    else if rf.is_blockedB (4 * j) = true ∨ num_moves < k then none
    else if rf.regs j = SUBWORD then
      grfcScanUnits rf asg instr size num_moves num_vars rest (k + 1) (n + 1)
        last_var
    else if (asg (rf.regs j)).rc.linear = true then none
    else if (instr.ops.any fun op =>
        decide (op.tid ≠ 0) && op.killBeforeDef &&
        decide (op.tid = rf.regs j)) = false ∧
        size ≤ (asg (rf.regs j)).rc.size then none
    else if num_moves < k + (asg (rf.regs j)).rc.size ∨
        (k + (asg (rf.regs j)).rc.size = num_moves ∧ n + 1 ≤ num_vars) then
      none
    else
      grfcScanUnits rf asg instr size num_moves num_vars rest
        (k + (asg (rf.regs j)).rc.size) (n + 1) (rf.regs j)

/-- Candidate window start positions: `bounds.lo`, stepping by `stride`,
while the window still fits in the bounds. -/
def grfcPositions (bounds : PhysRegInterval) (size stride : Nat) : List Nat :=
  if size ≤ bounds.size then
    (List.range ((bounds.size - size) / stride + 1)).map fun i =>
      bounds.lo + i * stride
  else []

/-- One iteration of the sliding-window loop of `get_regs_for_copies`:
skip windows intersecting the definition space (unless re-using a dead
operand's space), and adopt the window when the scan succeeds (the scan
itself enforces strict improvement over the incumbent). -/
def grfcStep (rf : RegisterFile) (asg : Nat → Assignment) (instr : GInstr)
    (size : Nat) (is_dead_operand : Bool) (def_reg : PhysRegInterval)
    (acc : Nat × Nat × Nat) (lo : Nat) : Nat × Nat × Nat :=
  if is_dead_operand = false ∧ intersects ⟨lo, size⟩ def_reg = true then acc
  else
    match grfcScanUnits rf asg instr size acc.2.1 acc.2.2 (winUnits lo size)
        0 0 0 with
    | none => acc
    | some (k, n) => (lo, k, n)

/-- The sliding-window search of `get_regs_for_copies` (best position,
move cost, variable count; a move cost of 255 = `0xFF` means no window
was found). -/
def grfcFindWindow (rf : RegisterFile) (asg : Nat → Assignment)
    (instr : GInstr) (size stride : Nat) (is_dead_operand : Bool)
    (def_reg bounds : PhysRegInterval) : Nat × Nat × Nat :=
  (grfcPositions bounds size stride).foldl
    (grfcStep rf asg instr size is_dead_operand def_reg) (bounds.lo, 255, 0)

/-- Ordered insertion into a `std::set<std::pair<unsigned, unsigned>>`. -/
def pinsert : List (Nat × Nat) → Nat × Nat → List (Nat × Nat)
  | [], x => [x]
  | y :: t, x =>
    if x.1 < y.1 ∨ (x.1 = y.1 ∧ x.2 < y.2) then x :: y :: t
    else if x = y then y :: t
    else y :: pinsert t x

/-- C++ `find_vars`: collect `(bytes, id)` for every value inside the
interval (per-byte ids for sub-word sentinel units), skipping blocked
units. -/
def find_vars (asg : Nat → Assignment) (rf : RegisterFile)
    (iv : PhysRegInterval) : List (Nat × Nat) :=
  (List.range' iv.lo iv.size).foldl (fun vars j =>
    if rf.is_blockedB (4 * j) = true then vars
    else if rf.regs j = SUBWORD then
      (List.range 4).foldl (fun vs b =>
        if (rf.subAt j).get b ≠ 0 then
          pinsert vs ((asg ((rf.subAt j).get b)).rc.bytes, (rf.subAt j).get b)
        else vs) vars
    else if rf.regs j ≠ 0 then
      pinsert vars ((asg (rf.regs j)).rc.bytes, rf.regs j)
    else vars) []

/-- C++ `collect_vars`: `find_vars`, then clear each collected variable
from the register file. -/
def collect_vars (asg : Nat → Assignment) (rf : RegisterFile)
    (iv : PhysRegInterval) : List (Nat × Nat) × RegisterFile :=
  (find_vars asg rf iv,
   (find_vars asg rf iv).foldl
     (fun f si => f.clearRc (asg si.2).regB (asg si.2).rc) rf)

/-- A parallel-copy pair `(Operand, Definition)`: value id, source and
destination byte addresses, register class. -/
structure CopyPair where
  tid : Nat
  srcB : Nat
  dstB : Nat
  rc : RegClass
deriving DecidableEq, Repr

/-- Context slice for the copy-placement code: the assignment table, the
triggering instruction, the GFX level, and the first-tier placement
used per variable. `placeSimple rf id` models lines 905-946 of the
source (the `DefInfo` re-derivation for the variable, the dead-operand
space re-use and the `get_reg_simple` tiers), which read but never
mutate the register file: it returns the chosen destination byte
address, or `none` when those tiers fail and the sliding-window search
must take over. -/
structure CopyCtx where
  asg : Nat → Assignment
  instr : GInstr
  gfx9plus : Bool
  placeSimple : RegisterFile → Nat → Option Nat

/-- Whether the variable is a kill-before-def operand of the
instruction (`is_dead_operand` of `get_regs_for_copies`; the operand
loop only runs for non-phis). -/
def grfcIsDead (c : CopyCtx) (id : Nat) : Bool :=
  !c.instr.isPhiI &&
  (c.instr.ops.any fun op =>
    decide (op.tid ≠ 0) && op.killBeforeDef && decide (op.tid = id))

mutual
/-- C++ `get_regs_for_copies(ctx, reg_file, parallelcopies, vars,
bounds, instr, def_reg)`, with a fuel bound on the recursion depth:
process the variables from large to small (reverse order of the ordered
set); `none` models a `false` return (failure) — also on fuel
exhaustion. -/
def get_regs_for_copies : Nat → CopyCtx → RegisterFile → List CopyPair →
    List (Nat × Nat) → PhysRegInterval → PhysRegInterval →
    Option (RegisterFile × List CopyPair)
  | 0, _, _, _, _, _, _ => none
  | fuel + 1, c, rf, pcs, vars, bounds, def_reg =>
    grfcList fuel c rf pcs vars.reverse bounds def_reg
termination_by fuel _ _ _ _ _ _ => (fuel, 0)

/-- Per-variable loop of `get_regs_for_copies`: try the first placement
tiers; otherwise run the sliding-window search, displace the window's
current occupants (clearing them and recursing on them), and block the
window; emit the variable's parallel copy. -/
def grfcList : Nat → CopyCtx → RegisterFile → List CopyPair →
    List (Nat × Nat) → PhysRegInterval → PhysRegInterval →
    Option (RegisterFile × List CopyPair)
  | _, _, rf, pcs, [], _, _ => some (rf, pcs)
  | fuel, c, rf, pcs, v :: rest, bounds, def_reg =>
    match c.placeSimple rf v.2 with
    | some resB =>
      grfcList fuel c (rf.blockRc resB (c.asg v.2).rc)
        (pcs ++ [⟨v.2, (c.asg v.2).regB, resB, (c.asg v.2).rc⟩])
        rest bounds def_reg
    | none =>
      match grfcFindWindow rf c.asg c.instr (c.asg v.2).rc.size
          (if (c.asg v.2).rc.subdword then 1 else get_stride (c.asg v.2).rc)
          (grfcIsDead c v.2) def_reg bounds with
      | (best, num_moves, _) =>
        if num_moves = 255 then none
        else
          match get_regs_for_copies fuel c
              ((collect_vars c.asg rf ⟨best, (c.asg v.2).rc.size⟩).2.blockRc
                (4 * best) (c.asg v.2).rc)
              pcs
              (collect_vars c.asg rf ⟨best, (c.asg v.2).rc.size⟩).1
              bounds def_reg with
          | none => none
          | some (rf3, pcs3) =>
            grfcList fuel c rf3
              (pcs3 ++ [⟨v.2, (c.asg v.2).regB, 4 * best, (c.asg v.2).rc⟩])
              rest bounds def_reg
termination_by fuel _ _ _ vars _ _ => (fuel, vars.length + 1)
end

/-- The `DefInfo` fields consumed by `get_reg_impl`. -/
structure GriInfo where
  bounds : PhysRegInterval
  size : Nat
  stride : Nat
  rc : RegClass
deriving DecidableEq, Repr

def MOD32 : Nat := 4294967296

/-- Killed-operand marking of `get_reg_impl` (lines 1067-1083): the
marked register indices (masked to 256 as in the C++ bitset) and the
killed-operand register count. -/
def griKilled (rf : RegisterFile) (instr : GInstr) (bounds : PhysRegInterval) :
    List Nat × Nat :=
  if instr.isPhiI then ([], 0)
  else
    instr.ops.foldl (fun acc op =>
      if op.tid ≠ 0 ∧ op.firstKillBeforeDef = true ∧
          bounds.containsReg (op.physRegB / 4) ∧
          rf.test (4 * (op.physRegB / 4))
            (align4 (op.bytes + op.physRegB % 4)) = false then
        (acc.1 ++ (List.range (RegClass.get op.rt op.bytes).size).map
          (fun i => (op.physRegB / 4) % 256 + i),
         acc.2 + (RegClass.get op.rt op.bytes).size)
      else acc) ([], 0)

/-- Inner loop of the sliding-window search of `get_reg_impl`: killed
operands refund pending operand moves; values at least as large as the
request or linear VGPRs reject the window. -/
def griScanUnits (rf : RegisterFile) (asg : Nat → Assignment)
    (killed : List Nat) (size : Nat) :
    List Nat → Nat → Nat → Nat → Nat → Option (Nat × Nat)
  | [], k, n, _, _ => some (k, n)
  | j :: rest, k, n, rem, last_var =>
    if j % 256 ∈ killed then
      if rem ≠ 0 then griScanUnits rf asg killed size rest (k - 1) n (rem - 1)
        last_var
      else griScanUnits rf asg killed size rest k n rem last_var
    else if rf.regs j = 0 ∨ rf.regs j = last_var then
      griScanUnits rf asg killed size rest k n rem last_var
    else if rf.regs j = SUBWORD then
      griScanUnits rf asg killed size rest (k + 1) (n + 1) rem last_var
    else if size ≤ (asg (rf.regs j)).rc.size then none
    else if (asg (rf.regs j)).rc.linear = true then none
    else
      griScanUnits rf asg killed size rest (k + (asg (rf.regs j)).rc.size)
        (n + 1) rem (rf.regs j)

/-- One iteration of the sliding-window loop of `get_reg_impl`:
skip windows starting or ending in the middle of an allocated variable,
scan, and adopt the window under the move-cost/variable-count/alignment
preference. -/
def griStep (rf : RegisterFile) (asg : Nat → Assignment) (killed : List Nat)
    (size op_moves : Nat) (isV4 : Bool) (bounds : PhysRegInterval)
    (acc : PhysRegInterval × Nat × Nat) (lo : Nat) :
    PhysRegInterval × Nat × Nat :=
  if bounds.lo < lo ∧ rf.is_empty_or_blockedB (4 * lo) = false ∧
      rf.get_id (4 * lo) = rf.get_id (4 * lo - 1) then acc
  else if lo + size < bounds.hi ∧
      rf.is_empty_or_blockedB (4 * (lo + size) - 1) = false ∧
      rf.get_id (4 * (lo + size) - 1) = rf.get_id (4 * (lo + size)) then acc
  else
    match griScanUnits rf asg killed size (winUnits lo size) op_moves 0
        op_moves 0 with
    | none => acc
    | some (k, n) =>
      if acc.2.1 < k then acc
      else if k = acc.2.1 ∧ n < acc.2.2 then acc
      else if (isV4 && decide (lo % 4 = 0)) = false ∧ k = acc.2.1 ∧
          n = acc.2.2 then acc
      else (⟨lo, size⟩, k, n)

/-- `op_moves` computation of `get_reg_impl`, with the unsigned 32-bit
wraparound of the C++ subtractions made explicit. -/
def griOpMoves (regs_free killed size : Nat) : Nat :=
  if (regs_free + MOD32 - killed) % MOD32 < size then
    (size + MOD32 - (regs_free + MOD32 - killed) % MOD32) % MOD32
  else 0

/-- The `tmp_file`/`vars` adjustment of `get_reg_impl` after collecting
the winning window's occupants: for `p_create_vector`, killed operands
of the definition's bank are re-filled when already in position and
otherwise queued for displacement and cleared; for other non-phi
instructions every killed operand is re-filled. -/
def griAdjust (c : CopyCtx) (info : GriInfo) (best : PhysRegInterval)
    (cv : List (Nat × Nat) × RegisterFile) :
    List (Nat × Nat) × RegisterFile :=
  if c.instr.isCreateVector then
    (c.instr.ops.foldl (fun acc op =>
      if op.tid ≠ 0 ∧ op.firstKillBeforeDef = true ∧ op.rt = info.rc.rt then
        if op.physRegB ≠ acc.2 ∧ (c.gfx9plus = true ∨
            (4 * best.lo < op.physRegB + op.bytes ∧
             op.physRegB < 4 * best.hi)) then
          ((pinsert acc.1.1 (op.bytes, op.tid),
            acc.1.2.clearRc op.physRegB (RegClass.get op.rt op.bytes)),
           acc.2 + op.bytes)
        else
          ((acc.1.1,
            acc.1.2.fillRc op.physRegB (RegClass.get op.rt op.bytes) op.tid),
           acc.2 + op.bytes)
      else (acc.1, acc.2 + op.bytes)) ((cv.1, cv.2), 4 * best.lo)).1
  else if c.instr.isPhiI = false then
    (cv.1, c.instr.ops.foldl (fun f op =>
      if op.tid ≠ 0 ∧ op.firstKillBeforeDef = true then
        f.fillRc op.physRegB (RegClass.get op.rt op.bytes) op.tid
      else f) cv.2)
  else (cv.1, cv.2)

/-- C++ `get_reg_impl(ctx, reg_file, parallelcopies, info, instr)`: mark
killed operands, run the sliding-window search, and on success displace
the winning window's occupants on a scratch copy of the register file
(`tmp_file`), handing them to `get_regs_for_copies` with a fresh local
parallel-copy list `pc`; the caller's file and list are extended only on
overall success. -/
def get_reg_impl (fuel : Nat) (c : CopyCtx) (rf : RegisterFile)
    (pcs : List CopyPair) (info : GriInfo) :
    Option Nat × RegisterFile × List CopyPair :=
  let kd := griKilled rf c.instr info.bounds
  let w := (grfcPositions info.bounds info.size info.stride).foldl
    (griStep rf c.asg kd.1 info.size
      (griOpMoves (rf.count_zero info.bounds) kd.2 info.size)
      (decide (info.rc = RegClass.get RegType.vgpr 16)) info.bounds)
    (⟨info.bounds.lo, info.size⟩, 255, 0)
  if w.2.1 = 255 then (none, rf, pcs)
  else
    match get_regs_for_copies fuel c
        (griAdjust c info w.1 (collect_vars c.asg rf w.1)).2 []
        (griAdjust c info w.1 (collect_vars c.asg rf w.1)).1
        info.bounds w.1 with
    | none => (none, rf, pcs)
    | some (_, pc) => (some w.1.lo, rf, pcs ++ pc)

/-- Short form of the "is a kill-before-def operand of the instruction"
test of the window scan. -/
def killAny (instr : GInstr) (v : Nat) : Bool :=
  instr.ops.any fun op =>
    decide (op.tid ≠ 0) && op.killBeforeDef && decide (op.tid = v)

/-- In a successful window scan of `get_regs_for_copies`, every
currently-assigned value inside the window that is not a kill-before-def
operand of the instruction is strictly smaller than the request. -/
theorem grfcScanUnits_reject (rf : RegisterFile) (asg : Nat → Assignment)
    (instr : GInstr) (size num_moves num_vars : Nat) :
    ∀ (units : List Nat) (k n last_var : Nat) (res : Nat × Nat),
      (last_var = 0 ∨ killAny instr last_var = true ∨
        (asg last_var).rc.size < size) →
      grfcScanUnits rf asg instr size num_moves num_vars units k n last_var
        = some res →
      ∀ j ∈ units, rf.regs j ≠ 0 → rf.regs j ≠ SUBWORD →
        killAny instr (rf.regs j) = false →
        (asg (rf.regs j)).rc.size < size := by
  intro units
  induction units with
  | nil =>
    intro k n lv res _ _ j hj
    cases hj
  | cons u rest ih =>
    intro k n lv res hlv hscan j hj hz hsw hkill
    rw [grfcScanUnits] at hscan
    by_cases hc1 : rf.regs u = 0 ∨ rf.regs u = lv
    · rw [if_pos hc1] at hscan
      rcases List.mem_cons.mp hj with rfl | hj2
      · rcases hc1 with hc1 | hc1
        · exact absurd hc1 hz
        · rcases hlv with h1 | h1 | h1
          · rw [h1] at hc1
            exact absurd hc1 hz
          · rw [hc1] at hkill
            rw [hkill] at h1
            cases h1
          · rw [hc1]
            exact h1
      · exact ih k n lv res hlv hscan j hj2 hz hsw hkill
    · rw [if_neg hc1] at hscan
      by_cases hc2 : rf.is_blockedB (4 * u) = true ∨ num_moves < k
      · rw [if_pos hc2] at hscan
        cases hscan
      · rw [if_neg hc2] at hscan
        by_cases hc3 : rf.regs u = SUBWORD
        · rw [if_pos hc3] at hscan
          rcases List.mem_cons.mp hj with rfl | hj2
          · exact absurd hc3 hsw
          · exact ih (k + 1) (n + 1) lv res hlv hscan j hj2 hz hsw hkill
        · rw [if_neg hc3] at hscan
          by_cases hc4 : (asg (rf.regs u)).rc.linear = true
          · rw [if_pos hc4] at hscan
            cases hscan
          · rw [if_neg hc4] at hscan
            by_cases hc5 : (instr.ops.any fun op =>
                decide (op.tid ≠ 0) && op.killBeforeDef &&
                decide (op.tid = rf.regs u)) = false ∧
                size ≤ (asg (rf.regs u)).rc.size
            · rw [if_pos hc5] at hscan
              cases hscan
            · rw [if_neg hc5] at hscan
              have hprop : killAny instr (rf.regs u) = true ∨
                  (asg (rf.regs u)).rc.size < size := by
                by_cases hk : killAny instr (rf.regs u) = true
                · exact Or.inl hk
                · refine Or.inr ?_
                  by_cases hs : size ≤ (asg (rf.regs u)).rc.size
                  · exact absurd ⟨Bool.eq_false_iff.mpr hk, hs⟩ hc5
                  · omega
              by_cases hc6 : num_moves < k + (asg (rf.regs u)).rc.size ∨
                  (k + (asg (rf.regs u)).rc.size = num_moves ∧
                    n + 1 ≤ num_vars)
              · rw [if_pos hc6] at hscan
                cases hscan
              · rw [if_neg hc6] at hscan
                rcases List.mem_cons.mp hj with rfl | hj2
                · rcases hprop with h1 | h1
                  · rw [h1] at hkill
                    cases hkill
                  · exact h1
                · exact ih (k + (asg (rf.regs u)).rc.size) (n + 1)
                    (rf.regs u) res (Or.inr hprop) hscan j hj2 hz hsw hkill

/-- **C4** (amended): in the live-range-split sliding-window search of
`get_regs_for_copies`, a window containing a currently-assigned value at
least as large as the request is rejected — and hence never selected as
the winning window — UNLESS that value is a kill-before-def operand of
the triggering instruction (the `!is_kill &&` exemption); every value in
the selected window that is not such a killed operand is strictly
smaller than the request. -/
theorem c4_window_rejection (rf : RegisterFile) (asg : Nat → Assignment)
    (instr : GInstr) (size stride : Nat) (is_dead_operand : Bool)
    (def_reg bounds : PhysRegInterval)
    (hwin : (grfcFindWindow rf asg instr size stride is_dead_operand def_reg
      bounds).2.1 ≠ 255) :
    ∀ j ∈ winUnits (grfcFindWindow rf asg instr size stride is_dead_operand
        def_reg bounds).1 size,
      rf.regs j ≠ 0 → rf.regs j ≠ SUBWORD →
      killAny instr (rf.regs j) = false →
      (asg (rf.regs j)).rc.size < size := by
  have hstep : ∀ (acc : Nat × Nat × Nat) (p : Nat),
      (acc.2.1 ≠ 255 →
        ∀ j ∈ winUnits acc.1 size, rf.regs j ≠ 0 → rf.regs j ≠ SUBWORD →
          killAny instr (rf.regs j) = false →
          (asg (rf.regs j)).rc.size < size) →
      ((grfcStep rf asg instr size is_dead_operand def_reg acc p).2.1 ≠ 255 →
        ∀ j ∈ winUnits
            (grfcStep rf asg instr size is_dead_operand def_reg acc p).1 size,
          rf.regs j ≠ 0 → rf.regs j ≠ SUBWORD →
          killAny instr (rf.regs j) = false →
          (asg (rf.regs j)).rc.size < size) := by
    intro acc p h
    unfold grfcStep
    by_cases hc1 : is_dead_operand = false ∧ intersects ⟨p, size⟩ def_reg = true
    · rw [if_pos hc1]
      exact h
    · rw [if_neg hc1]
      cases hscan : grfcScanUnits rf asg instr size acc.2.1 acc.2.2
          (winUnits p size) 0 0 0 with
      | none => exact h
      | some kn =>
        intro _ j hj hz hsw hkill
        exact grfcScanUnits_reject rf asg instr size acc.2.1 acc.2.2
          (winUnits p size) 0 0 0 kn (Or.inl rfl) hscan j hj hz hsw hkill
  have hmain : ∀ (ps : List Nat) (acc : Nat × Nat × Nat),
      (acc.2.1 ≠ 255 →
        ∀ j ∈ winUnits acc.1 size, rf.regs j ≠ 0 → rf.regs j ≠ SUBWORD →
          killAny instr (rf.regs j) = false →
          (asg (rf.regs j)).rc.size < size) →
      (ps.foldl (grfcStep rf asg instr size is_dead_operand def_reg)
          acc).2.1 ≠ 255 →
      ∀ j ∈ winUnits
          (ps.foldl (grfcStep rf asg instr size is_dead_operand def_reg)
            acc).1 size,
        rf.regs j ≠ 0 → rf.regs j ≠ SUBWORD →
        killAny instr (rf.regs j) = false →
        (asg (rf.regs j)).rc.size < size := by
    intro ps
    induction ps with
    | nil => intro acc h; exact h
    | cons p rest ih =>
      intro acc h
      exact ih (grfcStep rf asg instr size is_dead_operand def_reg acc p)
        (hstep acc p h)
  exact hmain (grfcPositions bounds size stride) (bounds.lo, 255, 0)
    (fun h255 => absurd rfl h255) hwin

/-- C4 counterexample register file: unit 0 holds value 42, everything
else free. -/
def c4rf : RegisterFile := ⟨fun u => if u = 0 then 42 else 0, []⟩

/-- C4 counterexample assignments: value 42 is two units (8 bytes). -/
def c4asg : Nat → Assignment := fun id =>
  if id = 42 then ⟨0, RegClass.get RegType.vgpr 8⟩
  else ⟨0, RegClass.get RegType.vgpr 4⟩

/-- C4 counterexample instruction: value 42 is a kill-before-def
operand. -/
def c4instr : GInstr := ⟨false, false, [⟨42, 0, 8, RegType.vgpr, true, true⟩]⟩

/-- **C4** (counterexample): requesting one unit, the window `[0, 1)`
contains the currently-assigned value 42 of size 2 ≥ 1, yet it is
selected as the winning window (move cost 2, not the 0xFF failure
sentinel) because 42 is a kill-before-def operand of the instruction —
the claim's unconditional rejection does not hold. -/
theorem c4_counterexample :
    c4rf.regs 0 = 42 ∧
    killAny c4instr 42 = true ∧
    1 ≤ (c4asg 42).rc.size ∧
    (grfcFindWindow c4rf c4asg c4instr 1 1 false ⟨1, 1⟩ ⟨0, 2⟩).2.1 ≠ 255 ∧
    (grfcFindWindow c4rf c4asg c4instr 1 1 false ⟨1, 1⟩ ⟨0, 2⟩).1 = 0 := by
  decide

/-- C4 witness register file: unit 0 holds the one-unit value 7. -/
def c4wrf : RegisterFile := ⟨fun u => if u = 0 then 7 else 0, []⟩

def c4wasg : Nat → Assignment := fun _ => ⟨0, RegClass.get RegType.vgpr 4⟩

def c4winstr : GInstr := ⟨false, false, []⟩

theorem c4_window_rejection_witness :
    (grfcFindWindow c4wrf c4wasg c4winstr 2 1 false ⟨5, 1⟩ ⟨0, 2⟩).2.1
      ≠ 255 ∧
    ∀ j ∈ winUnits (grfcFindWindow c4wrf c4wasg c4winstr 2 1 false ⟨5, 1⟩
        ⟨0, 2⟩).1 2,
      c4wrf.regs j ≠ 0 → c4wrf.regs j ≠ SUBWORD →
      killAny c4winstr (c4wrf.regs j) = false →
      (c4wasg (c4wrf.regs j)).rc.size < 2 :=
  ⟨by decide, c4_window_rejection c4wrf c4wasg c4winstr 2 1 false ⟨5, 1⟩
    ⟨0, 2⟩ (by decide)⟩

/-- **C5**: when `get_reg_impl` fails — no window found, or
`get_regs_for_copies` could not place some value of the displaced batch
(it returns failure, never partial success) — the caller's register file
and emitted parallel-copy set are untouched: the batch's placements were
confined to the scratch `tmp_file` and the local list `pc`, exactly as
if the batch had never been attempted. -/
theorem c5_no_partial_success (fuel : Nat) (c : CopyCtx) (rf : RegisterFile)
    (pcs : List CopyPair) (info : GriInfo)
    (h : (get_reg_impl fuel c rf pcs info).1 = none) :
    (get_reg_impl fuel c rf pcs info).2.1 = rf ∧
    (get_reg_impl fuel c rf pcs info).2.2 = pcs := by
  revert h
  simp only [get_reg_impl]
  split
  · intro _
    exact ⟨rfl, rfl⟩
  · split
    · intro _
      exact ⟨rfl, rfl⟩
    · intro h
      cases h

def c5wCtx : CopyCtx :=
  { asg := fun _ => ⟨0, RegClass.get RegType.vgpr 4⟩
    instr := ⟨false, false, []⟩
    gfx9plus := true
    placeSimple := fun _ _ => none }

def c5wInfo : GriInfo := ⟨⟨0, 1⟩, 2, 1, RegClass.get RegType.vgpr 8⟩

theorem c5_no_partial_success_witness :
    (get_reg_impl 1 c5wCtx emptyRegFile [] c5wInfo).2.1 = emptyRegFile ∧
    (get_reg_impl 1 c5wCtx emptyRegFile [] c5wInfo).2.2 = [] :=
  c5_no_partial_success 1 c5wCtx emptyRegFile [] c5wInfo (by decide)

end AcoRA
